import Mathlib

/-!
Verification of the pprof-like profile core of `cmd/trace/pprof.go`:
interval filtering, overlap computation, per-stack aggregation and
profile interning, embedded shallowly as Lean definitions.
-/

/-- A time interval in the trace, in nanoseconds (source: `interval`, pprof.go:59-61).
`end_` renders the Go field `end`, which is a reserved word in Lean. -/
structure interval where
  begin : Int
  end_ : Int
deriving DecidableEq, Repr

/-- The ordering used by `sort.Slice` in pprofMatchingSpans (pprof.go:151-158):
by begin ascending, end ascending as tie-break.  Since an `interval` is exactly
its two endpoints, elements equivalent under the comparator are equal, so the
sorted sequence of values is unique and `List.insertionSort` with this
reflexive total order computes it. -/
def intervalLE (x y : interval) : Prop :=
  x.begin < y.begin ∨ (x.begin = y.begin ∧ x.end_ ≤ y.end_)

instance : DecidableRel intervalLE := fun x y => by
  unfold intervalLE; infer_instance

instance : IsTotal interval intervalLE where
  total x y := by
    unfold intervalLE
    rcases lt_trichotomy x.begin y.begin with h | h | h
    · exact Or.inl (Or.inl h)
    · rcases le_total x.end_ y.end_ with h2 | h2
      · exact Or.inl (Or.inr ⟨h, h2⟩)
      · exact Or.inr (Or.inr ⟨h.symm, h2⟩)
    · exact Or.inr (Or.inl h)

instance : IsTrans interval intervalLE where
  trans x y z := by
    unfold intervalLE
    rintro (h1 | ⟨h1, h1'⟩) (h2 | ⟨h2, h2'⟩)
    · exact Or.inl (h1.trans h2)
    · exact Or.inl (h2 ▸ h1)
    · exact Or.inl (h1 ▸ h2)
    · exact Or.inr ⟨h1.trans h2, le_trans h1' h2'⟩

/-- The greedy outermost-selection loop of pprofMatchingSpans (pprof.go:159-168):
scan the sorted intervals, keeping an interval when `lastTimestamp <= i.begin`,
where `lastTimestamp` starts at 0 and becomes the kept interval's end. -/
def outerLoop : List interval → Int → List interval
  | [], _ => []
  | i :: rest, lastTimestamp =>
    if lastTimestamp ≤ i.begin then i :: outerLoop rest i.end_
    else outerLoop rest lastTimestamp

/-- The per-goroutine outermost-selection step of pprofMatchingSpans
(pprof.go:146-170): sort by (begin, end) and run the greedy scan with
initial `lastTimestamp = 0`. -/
def outermostSpans (l : List interval) : List interval :=
  outerLoop (List.insertionSort intervalLE l) 0

/-- Follows the spec's words, for comparison with `outerLoop`: keep an interval
exactly when its begin is at least the end of the last previously kept
interval; the first interval of the (sorted) list is always kept. -/
def specSelect : List interval → Option interval → List interval
  | [], _ => []
  | i :: rest, none => i :: specSelect rest (some i)
  | i :: rest, some j =>
    if j.end_ ≤ i.begin then i :: specSelect rest (some i)
    else specSelect rest (some j)

theorem outerLoop_sublist (l : List interval) (t : Int) :
    List.Sublist (outerLoop l t) l := by
  induction l generalizing t with
  | nil => simp [outerLoop]
  | cons i rest ih =>
    unfold outerLoop
    by_cases h : t ≤ i.begin
    · simp only [if_pos h]
      exact List.Sublist.cons₂ i (ih i.end_)
    · simp only [if_neg h]
      exact List.Sublist.cons i (ih t)

theorem outerLoop_head_ge (l : List interval) (t : Int) (x : interval)
    (hx : (outerLoop l t).head? = some x) : t ≤ x.begin := by
  induction l generalizing t with
  | nil => simp [outerLoop] at hx
  | cons i rest ih =>
    unfold outerLoop at hx
    by_cases h : t ≤ i.begin
    · simp only [if_pos h, List.head?_cons, Option.some.injEq] at hx
      exact hx ▸ h
    · simp only [if_neg h] at hx
      exact ih t hx

theorem outerLoop_chain' (l : List interval) (t : Int) :
    List.Chain' (fun i j => i.end_ ≤ j.begin) (outerLoop l t) := by
  induction l generalizing t with
  | nil => simp [outerLoop]
  | cons i rest ih =>
    unfold outerLoop
    by_cases h : t ≤ i.begin
    · simp only [if_pos h]
      refine List.chain'_cons'.mpr ⟨?_, ih i.end_⟩
      intro b hb
      exact outerLoop_head_ge rest i.end_ b hb
    · simp only [if_neg h]
      exact ih t

/-- A chain whose relation composes with a pairwise side relation is pairwise. -/
theorem pairwise_of_chain'_compat {α : Type _} {r q : α → α → Prop}
    (compat : ∀ a b c, r a b → q b c → r a c) :
    ∀ l : List α, List.Chain' r l → List.Pairwise q l → List.Pairwise r l := by
  intro l
  induction l with
  | nil => intro _ _; exact List.Pairwise.nil
  | cons a l ih =>
    intro hc hq
    rcases List.chain'_cons'.mp hc with ⟨hhead, hc'⟩
    refine List.Pairwise.cons ?_ (ih hc' hq.tail)
    intro b hb
    cases l with
    | nil => cases hb
    | cons x t =>
      have hrx : r a x := hhead x rfl
      rcases List.mem_cons.mp hb with rfl | hbt
      · exact hrx
      · exact compat a x b hrx ((List.pairwise_cons.mp hq.tail).1 b hbt)

theorem outerLoop_eq_specSelect_some (l : List interval) (j : interval) :
    outerLoop l j.end_ = specSelect l (some j) := by
  induction l generalizing j with
  | nil => rfl
  | cons i rest ih =>
    unfold outerLoop specSelect
    by_cases h : j.end_ ≤ i.begin
    · simp only [if_pos h, ih i]
    · simp only [if_neg h, ih j]

theorem intervalLE_begin_le {x y : interval} (h : intervalLE x y) :
    x.begin ≤ y.begin := by
  rcases h with h | ⟨h, _⟩
  · exact le_of_lt h
  · exact le_of_eq h

/-- C1: for each per-goroutine list of raw span intervals, the
outermost-selection step returns a list that is pairwise non-overlapping and
sorted ascending by begin, every kept interval being present in the input
unmodified; it keeps an interval exactly when its begin is at least the end of
the last previously kept interval, the first interval of the sorted order being
always kept (assuming non-negative timestamps). -/
theorem outermostSpans_correct (l : List interval)
    (hpos : ∀ i ∈ l, 0 ≤ i.begin) :
    List.Pairwise (fun i j => i.end_ ≤ j.begin) (outermostSpans l)
    ∧ List.Pairwise (fun i j => i.begin ≤ j.begin) (outermostSpans l)
    ∧ (∀ i ∈ outermostSpans l, i ∈ l)
    ∧ (outermostSpans l).head? = (List.insertionSort intervalLE l).head?
    ∧ outermostSpans l = specSelect (List.insertionSort intervalLE l) none := by
  have hperm : List.Perm (List.insertionSort intervalLE l) l :=
    List.perm_insertionSort intervalLE l
  have hsorted : List.Pairwise intervalLE (List.insertionSort intervalLE l) :=
    List.sorted_insertionSort intervalLE l
  have hsub : List.Sublist (outermostSpans l) (List.insertionSort intervalLE l) :=
    outerLoop_sublist _ 0
  have hmem : ∀ i ∈ outermostSpans l, i ∈ l := by
    intro i hi
    exact hperm.mem_iff.mp (hsub.subset hi)
  have hbegin : List.Pairwise (fun i j => i.begin ≤ j.begin) (outermostSpans l) :=
    (hsorted.imp fun h => intervalLE_begin_le h).sublist hsub
  refine ⟨?_, hbegin, hmem, ?_, ?_⟩
  · exact pairwise_of_chain'_compat
      (α := interval)
      (r := fun i j => i.end_ ≤ j.begin) (q := fun i j => i.begin ≤ j.begin)
      (fun a b c hab hbc => le_trans hab hbc)
      _ (outerLoop_chain' _ 0) hbegin
  · unfold outermostSpans
    cases hs : List.insertionSort intervalLE l with
    | nil => rfl
    | cons i rest =>
      have hi : i ∈ l := hperm.mem_iff.mp (hs ▸ List.mem_cons_self i rest)
      have h0 : (0 : Int) ≤ i.begin := hpos i hi
      unfold outerLoop
      simp [if_pos h0]
  · unfold outermostSpans
    cases hs : List.insertionSort intervalLE l with
    | nil => rfl
    | cons i rest =>
      have hi : i ∈ l := hperm.mem_iff.mp (hs ▸ List.mem_cons_self i rest)
      have h0 : (0 : Int) ≤ i.begin := hpos i hi
      unfold outerLoop specSelect
      simp only [if_pos h0, outerLoop_eq_specSelect_some]

/-- Concrete interval list with non-negative begins. -/
def spanWitnessList : List interval := [⟨0, 10⟩, ⟨2, 3⟩, ⟨12, 20⟩]

theorem outermostSpans_correct_witness :
    (∀ i ∈ spanWitnessList, 0 ≤ i.begin)
    ∧ (List.Pairwise (fun i j => i.end_ ≤ j.begin) (outermostSpans spanWitnessList)
      ∧ List.Pairwise (fun i j => i.begin ≤ j.begin) (outermostSpans spanWitnessList)
      ∧ (∀ i ∈ outermostSpans spanWitnessList, i ∈ spanWitnessList)
      ∧ (outermostSpans spanWitnessList).head?
          = (List.insertionSort intervalLE spanWitnessList).head?
      ∧ outermostSpans spanWitnessList
          = specSelect (List.insertionSort intervalLE spanWitnessList) none) :=
  ⟨by decide, outermostSpans_correct spanWitnessList (by decide)⟩

/-- Event kinds relevant to the four profile kinds (source: `trace.Ev*`
constants used in pprof.go); `EvOther` stands for every other kind. -/
inductive EventType where
  | EvGoBlockNet
  | EvGoBlockSend
  | EvGoBlockRecv
  | EvGoBlockSelect
  | EvGoBlockSync
  | EvGoBlockCond
  | EvGoBlockGC
  | EvGoSysCall
  | EvGoUnblock
  | EvGoCreate
  | EvOther
deriving DecidableEq, Repr

/-- A stack frame (source: `trace.Frame`): program counter, function name,
source file and line. -/
structure Frame where
  PC : Nat
  Fn : String
  File : String
  Line : Int
deriving DecidableEq, Repr

/-- A trace event as used by pprof.go (source: `trace.Event`): goroutine id,
event kind, start timestamp, optional linked end event (only its timestamp is
read, so `Link` carries just that; `none` renders a nil link), stack id and
captured stack. -/
structure GoEvent where
  G : Nat
  typ : EventType
  Ts : Int
  Link : Option Int
  StkID : Nat
  Stk : List Frame
deriving DecidableEq, Repr

/-- The per-goroutine interval map `map[uint64][]interval`: indexing an absent
key in a Go map yields a nil (empty) slice, so a total function into lists is
the faithful rendering; the nil map itself is `Option.none` at use sites. -/
def GMap : Type := Nat → List interval

/-- Modelled from the spec: `overlappingDuration` is defined elsewhere in
cmd/trace (not under src/); per the spec it is the standard
interval-intersection length
`max(0, min(interval.end, event.end) - max(interval.begin, event.begin))`. -/
def overlappingDuration (begin1 end1 begin2 end2 : Int) : Int :=
  max 0 (min end1 end2 - max begin1 begin2)

/-- The overlap calculator (source: `pprofOverlappingDuration`,
pprof.go:264-280).  A nil `gToIntervals` means no filtering and returns the
event's raw duration; an empty interval list for the event's goroutine
returns 0; otherwise strictly positive per-interval overlaps are summed.
A nil link (`Link = none`) would crash the Go code on the no-filter path;
callers guarantee a non-nil link, and the `none` branch here is junk (0). -/
def pprofOverlappingDuration (gToIntervals : Option GMap) (ev : GoEvent) : Int :=
  match ev.Link with
  | none => 0
  | some linkTs =>
    match gToIntervals with
    | none => linkTs - ev.Ts
    | some m =>
      let intervals := m ev.G
      if intervals = [] then 0
      else
        intervals.foldl (fun overlapping i =>
          let o := overlappingDuration i.begin i.end_ ev.Ts linkTs
          if 0 < o then overlapping + o else overlapping) 0

theorem overlappingDuration_nonneg (b1 e1 b2 e2 : Int) :
    0 ≤ overlappingDuration b1 e1 b2 e2 :=
  le_max_left 0 _

theorem overlapFold_eq_sum (s e : Int) (l : List interval) (a : Int) :
    l.foldl (fun overlapping i =>
        let o := overlappingDuration i.begin i.end_ s e
        if 0 < o then overlapping + o else overlapping) a
      = a + (l.map (fun i => overlappingDuration i.begin i.end_ s e)).sum := by
  induction l generalizing a with
  | nil => simp
  | cons i rest ih =>
    simp only [List.foldl_cons, List.map_cons, List.sum_cons]
    by_cases h : 0 < overlappingDuration i.begin i.end_ s e
    · simp only [if_pos h, ih]
      ring
    · have h0 : overlappingDuration i.begin i.end_ s e = 0 :=
        le_antisymm (not_lt.mp h) (overlappingDuration_nonneg _ _ _ _)
      simp only [if_neg h, ih, h0]
      simp

/-- With a non-nil map, the overlap is the sum of the per-interval
intersection lengths over the event goroutine's interval list. -/
theorem pprofOverlappingDuration_some_eq_sum (ev : GoEvent) (linkTs : Int)
    (hlink : ev.Link = some linkTs) (m : GMap) :
    pprofOverlappingDuration (some m) ev
      = ((m ev.G).map (fun i =>
          overlappingDuration i.begin i.end_ ev.Ts linkTs)).sum := by
  unfold pprofOverlappingDuration
  rw [hlink]
  by_cases hl : m ev.G = []
  · simp [hl]
  · simp only [if_neg hl, overlapFold_eq_sum, zero_add]

theorem pprofOverlappingDuration_none_eq (ev : GoEvent) (linkTs : Int)
    (hlink : ev.Link = some linkTs) :
    pprofOverlappingDuration none ev = linkTs - ev.Ts := by
  unfold pprofOverlappingDuration
  rw [hlink]

theorem pprofOverlappingDuration_some_nonneg (m : GMap) (ev : GoEvent) :
    0 ≤ pprofOverlappingDuration (some m) ev := by
  cases hlink : ev.Link with
  | none => unfold pprofOverlappingDuration; rw [hlink]
  | some linkTs =>
    rw [pprofOverlappingDuration_some_eq_sum ev linkTs hlink m]
    refine List.sum_nonneg ?_
    intro x hx
    rcases List.mem_map.mp hx with ⟨i, _, rfl⟩
    exact overlappingDuration_nonneg _ _ _ _

/-- The sum of intersection lengths against a sorted, disjoint interval list
is at most the length of the window `[s, e)`. -/
theorem sum_overlap_le_chain (e : Int) :
    ∀ (l : List interval) (s : Int),
      List.Pairwise (fun i j => i.end_ ≤ j.begin) l →
      (l.map (fun i => overlappingDuration i.begin i.end_ s e)).sum
        ≤ max 0 (e - s) := by
  intro l
  induction l with
  | nil => intro s _; simp
  | cons i rest ih =>
    intro s hp
    rcases List.pairwise_cons.mp hp with ⟨hhead, hrest⟩
    have hshift : ∀ j ∈ rest,
        overlappingDuration j.begin j.end_ s e
          = overlappingDuration j.begin j.end_ (max s i.end_) e := by
      intro j hj
      have hij : i.end_ ≤ j.begin := hhead j hj
      unfold overlappingDuration
      omega
    rw [List.map_cons, List.sum_cons, List.map_congr_left hshift]
    have hIH := ih (max s i.end_) hrest
    unfold overlappingDuration at hIH ⊢
    omega

/-- A symmetric-disjoint interval list with well-formed intervals becomes a
sorted disjoint chain after sorting by (begin, end). -/
theorem sorted_disjoint_chain (l : List interval)
    (hbe : ∀ i ∈ l, i.begin ≤ i.end_)
    (hdisj : List.Pairwise (fun i j => i.end_ ≤ j.begin ∨ j.end_ ≤ i.begin) l) :
    List.Pairwise (fun i j => i.end_ ≤ j.begin)
      (List.insertionSort intervalLE l) := by
  have hperm : List.Perm (List.insertionSort intervalLE l) l :=
    List.perm_insertionSort intervalLE l
  have hsorted : List.Pairwise intervalLE (List.insertionSort intervalLE l) :=
    List.sorted_insertionSort intervalLE l
  have hdisjS : List.Pairwise (fun i j => i.end_ ≤ j.begin ∨ j.end_ ≤ i.begin)
      (List.insertionSort intervalLE l) :=
    (List.Perm.pairwise_iff (fun {a b} h => Or.symm h) hperm).mpr hdisj
  have hbeS : ∀ i ∈ List.insertionSort intervalLE l, i.begin ≤ i.end_ := by
    intro i hi
    exact hbe i (hperm.mem_iff.mp hi)
  refine (hsorted.and hdisjS).imp_of_mem ?_
  intro a b ha hb hab
  rcases hab with ⟨hle, hd⟩
  have hba := hbeS a ha
  have hbb := hbeS b hb
  rcases hd with hd | hd
  · exact hd
  · unfold intervalLE at hle
    omega

/-- C2: for an event with a linked end, the overlap calculator returns the
raw duration for the nil sentinel, zero when the goroutine's interval list is
absent or empty, and otherwise the sum of the clamped per-interval
intersection lengths. -/
theorem pprofOverlappingDuration_cases (ev : GoEvent) (linkTs : Int)
    (hlink : ev.Link = some linkTs) :
    pprofOverlappingDuration none ev = linkTs - ev.Ts
    ∧ (∀ m : GMap, m ev.G = [] → pprofOverlappingDuration (some m) ev = 0)
    ∧ (∀ m : GMap, pprofOverlappingDuration (some m) ev
        = ((m ev.G).map (fun i =>
            max 0 (min i.end_ linkTs - max i.begin ev.Ts))).sum) := by
  refine ⟨pprofOverlappingDuration_none_eq ev linkTs hlink, ?_, ?_⟩
  · intro m hm
    unfold pprofOverlappingDuration
    rw [hlink]
    simp [hm]
  · intro m
    rw [pprofOverlappingDuration_some_eq_sum ev linkTs hlink m]
    rfl

/-- C7: with a well-formed disjoint filter and a forward-running event, the
overlap is between 0 and the event's own duration. -/
theorem pprofOverlappingDuration_bounds (ev : GoEvent) (linkTs : Int)
    (hlink : ev.Link = some linkTs) (hdur : ev.Ts ≤ linkTs)
    (g : Option GMap)
    (hg : ∀ m : GMap, g = some m → ∀ gid : Nat,
      (∀ i ∈ m gid, i.begin ≤ i.end_)
      ∧ List.Pairwise (fun i j => i.end_ ≤ j.begin ∨ j.end_ ≤ i.begin) (m gid)) :
    0 ≤ pprofOverlappingDuration g ev
    ∧ pprofOverlappingDuration g ev ≤ linkTs - ev.Ts := by
  cases g with
  | none =>
    rw [pprofOverlappingDuration_none_eq ev linkTs hlink]
    omega
  | some m =>
    refine ⟨pprofOverlappingDuration_some_nonneg m ev, ?_⟩
    rw [pprofOverlappingDuration_some_eq_sum ev linkTs hlink m]
    rcases hg m rfl ev.G with ⟨hbe, hdisj⟩
    have hchain := sorted_disjoint_chain (m ev.G) hbe hdisj
    have hperm : List.Perm (List.insertionSort intervalLE (m ev.G)) (m ev.G) :=
      List.perm_insertionSort intervalLE (m ev.G)
    have hsum :
        ((List.insertionSort intervalLE (m ev.G)).map (fun i =>
            overlappingDuration i.begin i.end_ ev.Ts linkTs)).sum
          = ((m ev.G).map (fun i =>
            overlappingDuration i.begin i.end_ ev.Ts linkTs)).sum :=
      (hperm.map _).sum_eq
    rw [← hsum]
    have := sum_overlap_le_chain linkTs (List.insertionSort intervalLE (m ev.G))
      ev.Ts hchain
    omega

/-- C9: with any non-nil map the overlap is never negative, even for an event
whose linked end precedes its start, while the nil sentinel returns the raw
difference, which is negative for such an event. -/
theorem pprofOverlappingDuration_clamped :
    (∀ (m : GMap) (ev : GoEvent), 0 ≤ pprofOverlappingDuration (some m) ev)
    ∧ (∀ (ev : GoEvent) (linkTs : Int), ev.Link = some linkTs →
        pprofOverlappingDuration none ev = linkTs - ev.Ts)
    ∧ (∀ (ev : GoEvent) (linkTs : Int), ev.Link = some linkTs →
        linkTs < ev.Ts → pprofOverlappingDuration none ev < 0) := by
  refine ⟨pprofOverlappingDuration_some_nonneg, ?_, ?_⟩
  · intro ev linkTs hlink
    exact pprofOverlappingDuration_none_eq ev linkTs hlink
  · intro ev linkTs hlink hneg
    rw [pprofOverlappingDuration_none_eq ev linkTs hlink]
    omega

/-- Concrete frame shared by the witnesses. -/
def frameWitness : Frame := { PC := 1, Fn := "main.f", File := "main.go", Line := 10 }

/-- Concrete interval filter used by the witnesses: every goroutine gets the
two disjoint windows of the spec's worked example. -/
def gmapWitness : GMap := fun _ => [⟨0, 20⟩, ⟨30, 60⟩]

/-- Concrete network-block event spanning [10, 50). -/
def evWitness : GoEvent :=
  { G := 1, typ := .EvGoBlockNet, Ts := 10, Link := some 50, StkID := 7,
    Stk := [frameWitness] }

theorem pprofOverlappingDuration_cases_witness :
    evWitness.Link = some 50
    ∧ pprofOverlappingDuration none evWitness = 50 - evWitness.Ts
    ∧ pprofOverlappingDuration (some gmapWitness) evWitness
        = ((gmapWitness evWitness.G).map (fun i =>
            max 0 (min i.end_ 50 - max i.begin evWitness.Ts))).sum :=
  ⟨rfl, (pprofOverlappingDuration_cases evWitness 50 rfl).1,
    (pprofOverlappingDuration_cases evWitness 50 rfl).2.2 gmapWitness⟩

theorem pprofOverlappingDuration_bounds_witness :
    evWitness.Link = some 50
    ∧ evWitness.Ts ≤ 50
    ∧ (0 ≤ pprofOverlappingDuration (some gmapWitness) evWitness
      ∧ pprofOverlappingDuration (some gmapWitness) evWitness ≤ 50 - evWitness.Ts) :=
  ⟨rfl, by decide,
    pprofOverlappingDuration_bounds evWitness 50 rfl (by decide) (some gmapWitness)
      (by
        intro m hm gid
        injection hm with h
        subst h
        show (∀ i ∈ ([⟨0, 20⟩, ⟨30, 60⟩] : List interval), i.begin ≤ i.end_)
          ∧ List.Pairwise (fun i j => i.end_ ≤ j.begin ∨ j.end_ ≤ i.begin)
              ([⟨0, 20⟩, ⟨30, 60⟩] : List interval)
        exact ⟨by decide, by decide⟩)⟩

/-- Concrete event whose linked end precedes its start. -/
def evWitnessNeg : GoEvent :=
  { G := 1, typ := .EvGoBlockNet, Ts := 100, Link := some 40, StkID := 7,
    Stk := [frameWitness] }

theorem pprofOverlappingDuration_clamped_witness :
    0 ≤ pprofOverlappingDuration (some gmapWitness) evWitnessNeg
    ∧ evWitnessNeg.Link = some 40
    ∧ pprofOverlappingDuration none evWitnessNeg = 40 - evWitnessNeg.Ts
    ∧ pprofOverlappingDuration none evWitnessNeg < 0 :=
  ⟨pprofOverlappingDuration_clamped.1 gmapWitness evWitnessNeg, rfl,
    pprofOverlappingDuration_clamped.2.1 evWitnessNeg 40 rfl,
    pprofOverlappingDuration_clamped.2.2 evWitnessNeg 40 rfl (by decide)⟩

/-- One entry in pprof-like profiles (source: `Record`, pprof.go:52-56):
representative stack, occurrence count (`uint64`), accumulated time (`int64`
nanoseconds). -/
structure Record where
  stk : List Frame
  n : Nat
  time : Int
deriving DecidableEq, Repr

/-- The zero value a Go map read yields for an absent key. -/
def zeroRecord : Record := { stk := [], n := 0, time := 0 }

/-- Lookup in the association-list rendering of the Go map
`map[uint64]Record` (Go map iteration order is unspecified, so all theorems
go through this map view). -/
def lookupRec : List (Nat × Record) → Nat → Option Record
  | [], _ => none
  | (k, r) :: rest, key => if key = k then some r else lookupRec rest key

/-- Go map assignment: replace the binding in place or append a new one. -/
def setRec : List (Nat × Record) → Nat → Record → List (Nat × Record)
  | [], key, r => [(key, r)]
  | (k, r0) :: rest, key, r =>
    if key = k then (key, r) :: rest else (k, r0) :: setRec rest key r

/-- The record update shared by the four aggregation loops (pprof.go:183-187):
read the record at the event's stack id (zero record when absent), install the
event's stack, increment the count, add the overlap. -/
def pprofUpdate (prof : List (Nat × Record)) (ev : GoEvent)
    (overlapping : Int) : List (Nat × Record) :=
  let rec0 := (lookupRec prof ev.StkID).getD zeroRecord
  setRec prof ev.StkID
    { stk := ev.Stk, n := rec0.n + 1, time := rec0.time + overlapping }

/-- One iteration of the computePprofIO loop (pprof.go:177-189). -/
def computePprofIOStep (gToIntervals : Option GMap)
    (prof : List (Nat × Record)) (ev : GoEvent) : List (Nat × Record) :=
  if ev.typ ≠ EventType.EvGoBlockNet ∨ ev.Link = none ∨ ev.StkID = 0
      ∨ ev.Stk.length = 0 then prof
  else
    let overlapping := pprofOverlappingDuration gToIntervals ev
    if 0 < overlapping then pprofUpdate prof ev overlapping else prof

/-- The per-stack Record map computed by computePprofIO (pprof.go:175-191). -/
def computePprofIOProf (gToIntervals : Option GMap) (events : List GoEvent) :
    List (Nat × Record) :=
  events.foldl (computePprofIOStep gToIntervals) []

/-- Event kinds admitted by the computePprofBlock switch (pprof.go:197-205);
EvGoBlockGC is included there with a TODO note questioning it. -/
def isBlockEventType : EventType → Bool
  | .EvGoBlockSend => true
  | .EvGoBlockRecv => true
  | .EvGoBlockSelect => true
  | .EvGoBlockSync => true
  | .EvGoBlockCond => true
  | .EvGoBlockGC => true
  | _ => false

/-- One iteration of the computePprofBlock loop (pprof.go:196-217). -/
def computePprofBlockStep (gToIntervals : Option GMap)
    (prof : List (Nat × Record)) (ev : GoEvent) : List (Nat × Record) :=
  if ¬ isBlockEventType ev.typ then prof
  else if ev.Link = none ∨ ev.StkID = 0 ∨ ev.Stk.length = 0 then prof
  else
    let overlapping := pprofOverlappingDuration gToIntervals ev
    if 0 < overlapping then pprofUpdate prof ev overlapping else prof

/-- The per-stack Record map computed by computePprofBlock (pprof.go:194-219). -/
def computePprofBlockProf (gToIntervals : Option GMap)
    (events : List GoEvent) : List (Nat × Record) :=
  events.foldl (computePprofBlockStep gToIntervals) []

/-- One iteration of the computePprofSyscall loop (pprof.go:224-236). -/
def computePprofSyscallStep (gToIntervals : Option GMap)
    (prof : List (Nat × Record)) (ev : GoEvent) : List (Nat × Record) :=
  if ev.typ ≠ EventType.EvGoSysCall ∨ ev.Link = none ∨ ev.StkID = 0
      ∨ ev.Stk.length = 0 then prof
  else
    let overlapping := pprofOverlappingDuration gToIntervals ev
    if 0 < overlapping then pprofUpdate prof ev overlapping else prof

/-- The per-stack Record map computed by computePprofSyscall (pprof.go:222-238). -/
def computePprofSyscallProf (gToIntervals : Option GMap)
    (events : List GoEvent) : List (Nat × Record) :=
  events.foldl (computePprofSyscallStep gToIntervals) []

/-- One iteration of the computePprofSched loop (pprof.go:244-257). -/
def computePprofSchedStep (gToIntervals : Option GMap)
    (prof : List (Nat × Record)) (ev : GoEvent) : List (Nat × Record) :=
  if (ev.typ ≠ EventType.EvGoUnblock ∧ ev.typ ≠ EventType.EvGoCreate)
      ∨ ev.Link = none ∨ ev.StkID = 0 ∨ ev.Stk.length = 0 then prof
  else
    let overlapping := pprofOverlappingDuration gToIntervals ev
    if 0 < overlapping then pprofUpdate prof ev overlapping else prof

/-- The per-stack Record map computed by computePprofSched (pprof.go:242-259). -/
def computePprofSchedProf (gToIntervals : Option GMap)
    (events : List GoEvent) : List (Nat × Record) :=
  events.foldl (computePprofSchedStep gToIntervals) []

/-- The four profile kinds. -/
inductive PprofKind where
  | io
  | block
  | syscall
  | sched
deriving DecidableEq, Repr

/-- The event-kind set of each profile kind, as the spec tabulates them. -/
def pprofKindTypes : PprofKind → List EventType
  | .io => [.EvGoBlockNet]
  | .block => [.EvGoBlockSend, .EvGoBlockRecv, .EvGoBlockSelect,
      .EvGoBlockSync, .EvGoBlockCond, .EvGoBlockGC]
  | .syscall => [.EvGoSysCall]
  | .sched => [.EvGoUnblock, .EvGoCreate]

/-- The aggregation step of each profile kind. -/
def pprofStepOfKind : PprofKind → Option GMap → List (Nat × Record) →
    GoEvent → List (Nat × Record)
  | .io => computePprofIOStep
  | .block => computePprofBlockStep
  | .syscall => computePprofSyscallStep
  | .sched => computePprofSchedStep

/-- The Record map of each profile kind. -/
def pprofProfOfKind : PprofKind → Option GMap → List GoEvent →
    List (Nat × Record)
  | .io => computePprofIOProf
  | .block => computePprofBlockProf
  | .syscall => computePprofSyscallProf
  | .sched => computePprofSchedProf

theorem pprofProfOfKind_eq_foldl (kind : PprofKind) (g : Option GMap)
    (events : List GoEvent) :
    pprofProfOfKind kind g events
      = events.foldl (pprofStepOfKind kind g) [] := by
  cases kind <;> rfl

/-- The contribution condition as the claims word it: event kind in the
kind's set, linked end present, nonzero stack id, at least one frame, and
strictly positive overlap against the active filter. -/
def pprofContributes (kind : PprofKind) (g : Option GMap) (ev : GoEvent) :
    Bool :=
  decide (ev.typ ∈ pprofKindTypes kind) && decide (ev.Link ≠ none)
    && decide (ev.StkID ≠ 0) && decide (ev.Stk ≠ [])
    && decide (0 < pprofOverlappingDuration g ev)

theorem isBlockEventType_mem (t : EventType) :
    isBlockEventType t = true ↔ t ∈ pprofKindTypes .block := by
  cases t <;> simp [isBlockEventType, pprofKindTypes]

/-- Each source loop body acts exactly as the claim's contribution rule. -/
theorem pprofStep_char (kind : PprofKind) (g : Option GMap)
    (prof : List (Nat × Record)) (ev : GoEvent) :
    pprofStepOfKind kind g prof ev
      = if pprofContributes kind g ev
        then pprofUpdate prof ev (pprofOverlappingDuration g ev)
        else prof := by
  cases kind
  case io =>
    by_cases h1 : ev.typ = EventType.EvGoBlockNet <;>
      by_cases h2 : ev.Link = none <;>
      by_cases h3 : ev.StkID = 0 <;>
      by_cases h4 : ev.Stk = [] <;>
      by_cases h5 : 0 < pprofOverlappingDuration g ev <;>
      simp [pprofStepOfKind, computePprofIOStep, pprofContributes,
        pprofKindTypes, h1, h2, h3, h4, h5, List.length_eq_zero]
  case block =>
    have hmem := isBlockEventType_mem ev.typ
    by_cases h1 : isBlockEventType ev.typ = true <;>
      by_cases h2 : ev.Link = none <;>
      by_cases h3 : ev.StkID = 0 <;>
      by_cases h4 : ev.Stk = [] <;>
      by_cases h5 : 0 < pprofOverlappingDuration g ev <;>
      simp [pprofStepOfKind, computePprofBlockStep, pprofContributes,
        ← hmem, h1, h2, h3, h4, h5, List.length_eq_zero]
  case syscall =>
    by_cases h1 : ev.typ = EventType.EvGoSysCall <;>
      by_cases h2 : ev.Link = none <;>
      by_cases h3 : ev.StkID = 0 <;>
      by_cases h4 : ev.Stk = [] <;>
      by_cases h5 : 0 < pprofOverlappingDuration g ev <;>
      simp [pprofStepOfKind, computePprofSyscallStep, pprofContributes,
        pprofKindTypes, h1, h2, h3, h4, h5, List.length_eq_zero]
  case sched =>
    by_cases h1a : ev.typ = EventType.EvGoUnblock <;>
      by_cases h1b : ev.typ = EventType.EvGoCreate <;>
      by_cases h2 : ev.Link = none <;>
      by_cases h3 : ev.StkID = 0 <;>
      by_cases h4 : ev.Stk = [] <;>
      by_cases h5 : 0 < pprofOverlappingDuration g ev <;>
      simp [pprofStepOfKind, computePprofSchedStep, pprofContributes,
        pprofKindTypes, h1a, h1b, h2, h3, h4, h5, List.length_eq_zero]

theorem lookupRec_setRec_self (prof : List (Nat × Record)) (k : Nat)
    (r : Record) : lookupRec (setRec prof k r) k = some r := by
  induction prof with
  | nil => simp [setRec, lookupRec]
  | cons p rest ih =>
    rcases p with ⟨k0, r0⟩
    unfold setRec
    by_cases h : k = k0
    · simp [h, lookupRec]
    · simp [h, lookupRec, ih]

theorem lookupRec_setRec_other (prof : List (Nat × Record)) (k k' : Nat)
    (r : Record) (h : k' ≠ k) :
    lookupRec (setRec prof k r) k' = lookupRec prof k' := by
  induction prof with
  | nil => simp [setRec, lookupRec, h]
  | cons p rest ih =>
    rcases p with ⟨k0, r0⟩
    unfold setRec
    by_cases hk : k = k0
    · subst hk
      simp [lookupRec, h]
    · simp only [if_neg hk]
      unfold lookupRec
      by_cases hk' : k' = k0
      · simp [hk']
      · simp [hk', ih]

/-- C3: for each of the four profile kinds, appending one event changes the
Record map exactly when the event satisfies the contribution rule (kind set,
linked end, nonzero stack id, nonempty stack, positive overlap), and then
only at the event's stack id: count + 1, time + overlap, stack set to the
event's frames. -/
theorem pprofProfOfKind_snoc (kind : PprofKind) (g : Option GMap)
    (events : List GoEvent) (ev : GoEvent) (k : Nat) :
    lookupRec (pprofProfOfKind kind g (events ++ [ev])) k
      = if pprofContributes kind g ev then
          (if k = ev.StkID then
            some { stk := ev.Stk,
                   n := ((lookupRec (pprofProfOfKind kind g events)
                          ev.StkID).getD zeroRecord).n + 1,
                   time := ((lookupRec (pprofProfOfKind kind g events)
                          ev.StkID).getD zeroRecord).time
                        + pprofOverlappingDuration g ev }
          else lookupRec (pprofProfOfKind kind g events) k)
        else lookupRec (pprofProfOfKind kind g events) k := by
  rw [pprofProfOfKind_eq_foldl, pprofProfOfKind_eq_foldl, List.foldl_append]
  simp only [List.foldl_cons, List.foldl_nil]
  rw [pprofStep_char]
  by_cases hc : pprofContributes kind g ev
  · simp only [if_pos hc, pprofUpdate]
    by_cases hk : k = ev.StkID
    · subst hk
      rw [lookupRec_setRec_self]
      simp
    · rw [lookupRec_setRec_other _ _ _ _ hk]
      simp [if_neg hk]
  · simp [if_neg hc]

/-- Map view of a Record association list. -/
def recMapView (prof : List (Nat × Record)) : Nat → Option Record :=
  fun k => lookupRec prof k

/-- Effect of one aggregation step on the map view. -/
def pprofStepFun (kind : PprofKind) (g : Option GMap)
    (m : Nat → Option Record) (ev : GoEvent) : Nat → Option Record :=
  if pprofContributes kind g ev then
    fun k => if k = ev.StkID then
        some { stk := ev.Stk, n := ((m ev.StkID).getD zeroRecord).n + 1,
               time := ((m ev.StkID).getD zeroRecord).time
                    + pprofOverlappingDuration g ev }
      else m k
  else m

theorem recMapView_step (kind : PprofKind) (g : Option GMap)
    (prof : List (Nat × Record)) (ev : GoEvent) :
    recMapView (pprofStepOfKind kind g prof ev)
      = pprofStepFun kind g (recMapView prof) ev := by
  funext k
  rw [pprofStep_char]
  unfold pprofStepFun recMapView
  by_cases hc : pprofContributes kind g ev
  · simp only [hc, if_true, pprofUpdate]
    by_cases hk : k = ev.StkID
    · subst hk
      rw [lookupRec_setRec_self]
      simp
    · rw [lookupRec_setRec_other _ _ _ _ hk]
      simp [if_neg hk]
  · simp [hc]

theorem recMapView_foldl (kind : PprofKind) (g : Option GMap)
    (events : List GoEvent) :
    ∀ prof, recMapView (events.foldl (pprofStepOfKind kind g) prof)
      = events.foldl (pprofStepFun kind g) (recMapView prof) := by
  induction events with
  | nil => intro prof; rfl
  | cons e rest ih =>
    intro prof
    simp only [List.foldl_cons]
    rw [ih, recMapView_step]

/-- Two adjacent aggregation steps commute when the two events agree on the
stack whenever they share a stack id. -/
theorem pprofStepFun_comm (kind : PprofKind) (g : Option GMap)
    (e1 e2 : GoEvent) (hstk : e1.StkID = e2.StkID → e1.Stk = e2.Stk)
    (m : Nat → Option Record) :
    pprofStepFun kind g (pprofStepFun kind g m e1) e2
      = pprofStepFun kind g (pprofStepFun kind g m e2) e1 := by
  unfold pprofStepFun
  by_cases hc1 : pprofContributes kind g e1 <;>
    by_cases hc2 : pprofContributes kind g e2 <;>
    simp only [hc1, hc2, if_true, Bool.false_eq_true, if_false]
  funext k
  by_cases h12 : e1.StkID = e2.StkID
  · rw [← h12]
    have hs : e1.Stk = e2.Stk := hstk h12
    by_cases hk : k = e1.StkID
    · subst hk
      simp [hs]
      omega
    · simp [hk]
  · by_cases hk1 : k = e1.StkID <;> by_cases hk2 : k = e2.StkID
    · exact absurd (hk1.symm.trans hk2) h12
    · subst hk1
      simp [hk2, h12, Ne.symm h12]
    · subst hk2
      simp [hk1, Ne.symm h12]
    · simp [hk1, hk2]

theorem pprofFoldFun_perm (kind : PprofKind) (g : Option GMap) :
    ∀ {l1 l2 : List GoEvent}, l1.Perm l2 →
      (∀ e1 ∈ l1, ∀ e2 ∈ l1, e1.StkID = e2.StkID → e1.Stk = e2.Stk) →
      ∀ m : Nat → Option Record,
        l1.foldl (pprofStepFun kind g) m = l2.foldl (pprofStepFun kind g) m := by
  intro l1 l2 hp
  induction hp with
  | nil => intro _ m; rfl
  | cons x _ ih =>
    intro hc m
    simp only [List.foldl_cons]
    exact ih (fun e1 h1 e2 h2 => hc e1 (List.mem_cons_of_mem x h1) e2
      (List.mem_cons_of_mem x h2)) (pprofStepFun kind g m x)
  | swap x y l =>
    intro hc m
    simp only [List.foldl_cons]
    rw [pprofStepFun_comm kind g y x
      (hc y (List.mem_cons_self y _) x
        (List.mem_cons_of_mem y (List.mem_cons_self x _)))]
  | trans h12 _ ih12 ih23 =>
    intro hc m
    rw [ih12 hc m]
    refine ih23 ?_ m
    intro e1 h1 e2 h2
    exact hc e1 (h12.mem_iff.mpr h1) e2 (h12.mem_iff.mpr h2)

/-- C4: permuting the event list leaves each kind's final Record map
identical (same keys, counts, accumulated times and representative stacks),
assuming events sharing a stack id carry equal frame lists. -/
theorem pprofProfOfKind_perm (kind : PprofKind) (g : Option GMap)
    (events events' : List GoEvent) (hperm : events.Perm events')
    (hstk : ∀ e1 ∈ events, ∀ e2 ∈ events,
      e1.StkID = e2.StkID → e1.Stk = e2.Stk) :
    recMapView (pprofProfOfKind kind g events)
      = recMapView (pprofProfOfKind kind g events') := by
  rw [pprofProfOfKind_eq_foldl, pprofProfOfKind_eq_foldl,
    recMapView_foldl, recMapView_foldl]
  exact pprofFoldFun_perm kind g hperm hstk (recMapView [])

/-- Second concrete network-block event sharing stack id 7. -/
def evWitnessB : GoEvent :=
  { G := 2, typ := .EvGoBlockNet, Ts := 60, Link := some 90, StkID := 7,
    Stk := [frameWitness] }

theorem pprofProfOfKind_perm_witness :
    List.Perm [evWitness, evWitnessB] [evWitnessB, evWitness]
    ∧ (∀ e1 ∈ [evWitness, evWitnessB], ∀ e2 ∈ [evWitness, evWitnessB],
        e1.StkID = e2.StkID → e1.Stk = e2.Stk)
    ∧ recMapView (pprofProfOfKind .io none [evWitness, evWitnessB])
        = recMapView (pprofProfOfKind .io none [evWitnessB, evWitness]) :=
  ⟨by decide, by decide,
    pprofProfOfKind_perm .io none [evWitness, evWitnessB]
      [evWitnessB, evWitness] (by decide) (by decide)⟩

/-- A profile value-type header entry (source: `profile.ValueType`); `typ`
and `unit` render the Go fields `Type` and `Unit`, reserved words in Lean. -/
structure ProfValueType where
  typ : String
  unit : String
deriving DecidableEq, Repr

/-- A profile function entry (source: `profile.Function`). -/
structure ProfFunction where
  ID : Nat
  Name : String
  SystemName : String
  Filename : String
deriving DecidableEq, Repr

/-- A profile line entry (source: `profile.Line`); the Go field is a pointer
to an immutable Function, rendered by value. -/
structure ProfLine where
  Function : ProfFunction
  Line : Int
deriving DecidableEq, Repr

/-- A profile location entry (source: `profile.Location`). -/
structure ProfLocation where
  ID : Nat
  Address : Nat
  Line : List ProfLine
deriving DecidableEq, Repr

/-- A profile sample (source: `profile.Sample`), with its value vector and
ordered location references (pointers to immutable Locations, by value). -/
structure ProfSample where
  Value : List Int
  Location : List ProfLocation
deriving DecidableEq, Repr

/-- The profile object (source: `profile.Profile`), restricted to the fields
buildProfile populates. -/
structure Profile where
  PeriodType : ProfValueType
  Period : Int
  SampleType : List ProfValueType
  Function : List ProfFunction
  Location : List ProfLocation
  Sample : List ProfSample
deriving DecidableEq, Repr

/-- The loop state of buildProfile (pprof.go:330-377): the growing Function,
Location and Sample tables plus the interning maps `funcs` (keyed by the Go
string concatenation `frame.File + frame.Fn`) and `locs` (keyed by
`frame.PC`). -/
structure BuildState where
  functions : List ProfFunction
  locations : List ProfLocation
  samples : List ProfSample
  funcs : String → Option ProfFunction
  locs : Nat → Option ProfLocation

/-- Insertion into a Go map rendered as a function. -/
def mapInsert {α β : Type} [DecidableEq α] (m : α → Option β) (key : α)
    (v : β) : α → Option β :=
  fun k => if k = key then some v else m k

/-- The empty buildProfile state: empty tables, empty maps. -/
def emptyBuildState : BuildState :=
  { functions := [], locations := [], samples := [],
    funcs := fun _ => none, locs := fun _ => none }

/-- Processing of one frame in buildProfile (pprof.go:343-370): reuse the
Location interned for the frame's address if any; otherwise look up or
create the Function for the key `frame.File ++ frame.Fn`, then create a
Location with the next sequential id, the frame's address and a single Line
entry, intern it, and return it. -/
def processFrame (st : BuildState) (frame : Frame) :
    BuildState × ProfLocation :=
  match st.locs frame.PC with
  | some loc => (st, loc)
  | none =>
    let p1 :=
      match st.funcs (frame.File ++ frame.Fn) with
      | some fn => (st, fn)
      | none =>
        let fn : ProfFunction :=
          { ID := st.functions.length + 1, Name := frame.Fn,
            SystemName := frame.Fn, Filename := frame.File }
        ({ st with
            functions := st.functions ++ [fn],
            funcs := mapInsert st.funcs (frame.File ++ frame.Fn) fn }, fn)
    let loc : ProfLocation :=
      { ID := p1.1.locations.length + 1, Address := frame.PC,
        Line := [{ Function := p1.2, Line := frame.Line }] }
    ({ p1.1 with
        locations := p1.1.locations ++ [loc],
        locs := mapInsert p1.1.locs frame.PC loc }, loc)

/-- Body of the inner frame loop of buildProfile (pprof.go:343-371): intern
the frame and append the resulting location to `sloc`. -/
def frameStep (acc : BuildState × List ProfLocation) (frame : Frame) :
    BuildState × List ProfLocation :=
  let pr := processFrame acc.1 frame
  (pr.1, acc.2 ++ [pr.2])

/-- Processing of one record in buildProfile (pprof.go:341-375): intern each
frame of its stack in order, collecting the per-frame locations, then append
one sample carrying [count, time] and those locations. -/
def processRecord (st : BuildState) (r : Record) : BuildState :=
  let acc := r.stk.foldl frameStep (st, ([] : List ProfLocation))
  { acc.1 with
      samples := acc.1.samples
        ++ [{ Value := [(r.n : Int), r.time], Location := acc.2 }] }

/-- buildProfile (pprof.go:330-378) over the records of the Record map, in
the order of one Go map traversal (Go map iteration order is unspecified;
claims about buildProfile hold for every order, so the record list is the
parameter). -/
def buildProfile (recs : List Record) : Profile :=
  let st := recs.foldl processRecord emptyBuildState
  { PeriodType := { typ := "trace", unit := "count" },
    Period := 1,
    SampleType := [{ typ := "contentions", unit := "count" },
      { typ := "delay", unit := "nanoseconds" }],
    Function := st.functions,
    Location := st.locations,
    Sample := st.samples }

/-- C10: Location interning is keyed only by the frame's address: when the
address is already interned, the existing Location is returned and the state
is completely unchanged — the frame's own function name, file and line are
discarded and no Function lookup or creation happens. -/
theorem processFrame_interned (st : BuildState) (f : Frame)
    (l : ProfLocation) (h : st.locs f.PC = some l) :
    processFrame st f = (st, l) := by
  unfold processFrame
  rw [h]

/-- State after interning one frame. -/
def buildStateWitness : BuildState :=
  (processFrame emptyBuildState frameWitness).1

/-- Location created for `frameWitness`. -/
def locWitness : ProfLocation :=
  (processFrame emptyBuildState frameWitness).2

/-- A frame whose address collides with `frameWitness` but whose function
name, file and line all differ. -/
def frameWitnessClash : Frame :=
  { PC := 1, Fn := "other.g", File := "other.go", Line := 99 }

theorem processFrame_interned_witness :
    buildStateWitness.locs frameWitnessClash.PC = some locWitness
    ∧ processFrame buildStateWitness frameWitnessClash
        = (buildStateWitness, locWitness) :=
  ⟨rfl, processFrame_interned buildStateWitness frameWitnessClash locWitness rfl⟩

/-- The single Function entry buildProfile creates for a first frame. -/
def fnOfFrame (f : Frame) : ProfFunction :=
  { ID := 1, Name := f.Fn, SystemName := f.Fn, Filename := f.File }

/-- The single Location entry buildProfile creates for a first frame. -/
def locOfFrame (f : Frame) : ProfLocation :=
  { ID := 1, Address := f.PC,
    Line := [{ Function := fnOfFrame f, Line := f.Line }] }

/-- C8: one qualifying network-block event (goroutine 1, [100,150), stack id
7, one frame) with the nil no-filter sentinel aggregates to the singleton
record {count 1, time 50}; building the profile from that record yields
exactly one sample with value vector [1, 50] and one Location/Function pair
derived from the frame; and the profile header is the fixed constants for
every input. -/
theorem computePprofIO_endToEnd (f : Frame) :
    computePprofIOProf none
        [{ G := 1, typ := .EvGoBlockNet, Ts := 100, Link := some 150,
           StkID := 7, Stk := [f] }]
      = [(7, { stk := [f], n := 1, time := 50 })]
    ∧ buildProfile [{ stk := [f], n := 1, time := 50 }]
      = { PeriodType := { typ := "trace", unit := "count" },
          Period := 1,
          SampleType := [{ typ := "contentions", unit := "count" },
            { typ := "delay", unit := "nanoseconds" }],
          Function := [fnOfFrame f],
          Location := [locOfFrame f],
          Sample := [{ Value := [1, 50], Location := [locOfFrame f] }] }
    ∧ (∀ recs : List Record,
        (buildProfile recs).PeriodType = { typ := "trace", unit := "count" }
        ∧ (buildProfile recs).Period = 1
        ∧ (buildProfile recs).SampleType
            = [{ typ := "contentions", unit := "count" },
              { typ := "delay", unit := "nanoseconds" }]) := by
  refine ⟨rfl, rfl, ?_⟩
  intro recs
  exact ⟨rfl, rfl, rfl⟩

theorem mapInsert_self {α β : Type} [DecidableEq α] (m : α → Option β)
    (k : α) (v : β) : mapInsert m k v k = some v := by
  simp [mapInsert]

theorem mapInsert_other {α β : Type} [DecidableEq α] (m : α → Option β)
    (k : α) (v : β) (k' : α) (h : k' ≠ k) : mapInsert m k v k' = m k' := by
  simp [mapInsert, h]

theorem range'_one_concat (n : Nat) :
    List.range' 1 (n + 1) = List.range' 1 n ++ [n + 1] := by
  have h := @List.range'_concat 1 1 n
  simpa [Nat.add_comm] using h

/-- Sequential-id bookkeeping: appending an element carrying the next id
keeps the id column equal to 1, 2, ..., length. -/
theorem map_id_concat {α : Type} (proj : α → Nat) (l : List α) (x : α)
    (h : l.map proj = List.range' 1 l.length) (hx : proj x = l.length + 1) :
    (l ++ [x]).map proj = List.range' 1 (l ++ [x]).length := by
  rw [List.map_append, h, List.length_append]
  simp [hx, range'_one_concat]

/-- Interning invariants of the buildProfile state: sequential ids, the
`funcs`/`locs` maps are exactly the key views of the tables, and samples
reference only interned locations. -/
structure BuildInv (st : BuildState) : Prop where
  funIds : st.functions.map ProfFunction.ID = List.range' 1 st.functions.length
  locIds : st.locations.map ProfLocation.ID = List.range' 1 st.locations.length
  funMap : ∀ fn ∈ st.functions, st.funcs (fn.Filename ++ fn.Name) = some fn
  funMapMem : ∀ k fn, st.funcs k = some fn →
    fn ∈ st.functions ∧ fn.Filename ++ fn.Name = k
  locMap : ∀ l ∈ st.locations, st.locs l.Address = some l
  locMapMem : ∀ pc l, st.locs pc = some l → l ∈ st.locations ∧ l.Address = pc
  samplesLoc : ∀ s ∈ st.samples, ∀ loc ∈ s.Location, loc ∈ st.locations

theorem buildInv_empty : BuildInv emptyBuildState := by
  refine ⟨rfl, rfl, ?_, ?_, ?_, ?_, ?_⟩ <;> simp [emptyBuildState]

/-- The Function entry processFrame creates when the frame's key is absent
(pprof.go:348-355). -/
def newFn (st : BuildState) (f : Frame) : ProfFunction :=
  { ID := st.functions.length + 1, Name := f.Fn, SystemName := f.Fn,
    Filename := f.File }

/-- The Location entry processFrame creates at a fresh address
(pprof.go:357-368), referencing function entry `fn`. -/
def newLoc (st : BuildState) (f : Frame) (fn : ProfFunction) : ProfLocation :=
  { ID := st.locations.length + 1, Address := f.PC,
    Line := [{ Function := fn, Line := f.Line }] }

/-- State after processFrame creates a Location (and interns it), starting
from a state `st1` whose locations/locs are those of `st`. -/
def addLoc (st : BuildState) (f : Frame) (fn : ProfFunction) : BuildState :=
  { st with
      locations := st.locations ++ [newLoc st f fn],
      locs := mapInsert st.locs f.PC (newLoc st f fn) }

/-- State after processFrame creates a Function entry for frame `f`. -/
def addFn (st : BuildState) (f : Frame) : BuildState :=
  { st with
      functions := st.functions ++ [newFn st f],
      funcs := mapInsert st.funcs (f.File ++ f.Fn) (newFn st f) }

theorem processFrame_eq_interned (st : BuildState) (f : Frame)
    (loc : ProfLocation) (h : st.locs f.PC = some loc) :
    processFrame st f = (st, loc) := by
  unfold processFrame
  rw [h]

theorem processFrame_eq_foundFn (st : BuildState) (f : Frame)
    (fn : ProfFunction) (hloc : st.locs f.PC = none)
    (hfun : st.funcs (f.File ++ f.Fn) = some fn) :
    processFrame st f = (addLoc st f fn, newLoc st f fn) := by
  unfold processFrame
  rw [hloc, hfun]
  rfl

theorem processFrame_eq_freshFn (st : BuildState) (f : Frame)
    (hloc : st.locs f.PC = none)
    (hfun : st.funcs (f.File ++ f.Fn) = none) :
    processFrame st f = (addLoc (addFn st f) f (newFn st f),
      newLoc (addFn st f) f (newFn st f)) := by
  unfold processFrame
  rw [hloc, hfun]
  rfl

/-- Full effect of interning one frame: invariants are preserved, the tables
only grow, samples and pre-existing map entries are untouched, the returned
location is interned at the frame's address, and a fresh address guarantees
the frame's function key is in the table. -/
theorem processFrame_spec (st : BuildState) (f : Frame) (hinv : BuildInv st) :
    BuildInv (processFrame st f).1
    ∧ (∃ t, (processFrame st f).1.functions = st.functions ++ t)
    ∧ (∃ t, (processFrame st f).1.locations = st.locations ++ t)
    ∧ (processFrame st f).1.samples = st.samples
    ∧ (∀ k fn, st.funcs k = some fn → (processFrame st f).1.funcs k = some fn)
    ∧ (∀ pc l, st.locs pc = some l → (processFrame st f).1.locs pc = some l)
    ∧ (∀ pc l, (processFrame st f).1.locs pc = some l →
        st.locs pc = some l ∨ pc = f.PC)
    ∧ (processFrame st f).2 ∈ (processFrame st f).1.locations
    ∧ (processFrame st f).2.Address = f.PC
    ∧ (processFrame st f).1.locs f.PC = some (processFrame st f).2
    ∧ (st.locs f.PC = none → ∃ fn ∈ (processFrame st f).1.functions,
        fn.Filename ++ fn.Name = f.File ++ f.Fn) := by
  rcases hloc : st.locs f.PC with _ | loc
  · rcases hfun : st.funcs (f.File ++ f.Fn) with _ | fn
    · -- fresh address, fresh function key: both are created
      rw [processFrame_eq_freshFn st f hloc hfun]
      refine ⟨⟨?_, ?_, ?_, ?_, ?_, ?_, ?_⟩, ⟨_, rfl⟩, ⟨_, rfl⟩, rfl,
        ?_, ?_, ?_, ?_, rfl, ?_, ?_⟩
      · exact map_id_concat _ _ _ hinv.funIds rfl
      · exact map_id_concat _ _ _ hinv.locIds rfl
      · intro fn' hfn'
        rcases List.mem_append.mp hfn' with hold | hnewm
        · have hkey : fn'.Filename ++ fn'.Name ≠ f.File ++ f.Fn := by
            intro hkeq
            rw [← hkeq] at hfun
            rw [hinv.funMap fn' hold] at hfun
            cases hfun
          show mapInsert st.funcs (f.File ++ f.Fn) (newFn st f) _ = _
          rw [mapInsert_other _ _ _ _ hkey]
          exact hinv.funMap fn' hold
        · rcases List.mem_singleton.mp hnewm with rfl
          exact mapInsert_self _ _ _
      · intro k fn' hk
        by_cases hkeq : k = f.File ++ f.Fn
        · subst hkeq
          rw [show (addLoc (addFn st f) f (newFn st f)).funcs
              = mapInsert st.funcs (f.File ++ f.Fn) (newFn st f) from rfl,
            mapInsert_self] at hk
          cases hk
          exact ⟨List.mem_append.mpr (Or.inr (List.mem_singleton.mpr rfl)), rfl⟩
        · rw [show (addLoc (addFn st f) f (newFn st f)).funcs
              = mapInsert st.funcs (f.File ++ f.Fn) (newFn st f) from rfl,
            mapInsert_other _ _ _ _ hkeq] at hk
          rcases hinv.funMapMem k fn' hk with ⟨hm, hkey⟩
          exact ⟨List.mem_append.mpr (Or.inl hm), hkey⟩
      · intro l hl
        rcases List.mem_append.mp hl with hold | hnewm
        · have haddr : l.Address ≠ f.PC := by
            intro heq
            rw [← heq] at hloc
            rw [hinv.locMap l hold] at hloc
            cases hloc
          show mapInsert (addFn st f).locs f.PC (newLoc (addFn st f) f (newFn st f)) _ = _
          rw [mapInsert_other _ _ _ _ haddr]
          exact hinv.locMap l hold
        · rcases List.mem_singleton.mp hnewm with rfl
          exact mapInsert_self _ _ _
      · intro pc l hl
        by_cases hpc : pc = f.PC
        · subst hpc
          rw [show (addLoc (addFn st f) f (newFn st f)).locs
              = mapInsert (addFn st f).locs f.PC (newLoc (addFn st f) f (newFn st f)) from rfl,
            mapInsert_self] at hl
          cases hl
          exact ⟨List.mem_append.mpr (Or.inr (List.mem_singleton.mpr rfl)), rfl⟩
        · rw [show (addLoc (addFn st f) f (newFn st f)).locs
              = mapInsert (addFn st f).locs f.PC (newLoc (addFn st f) f (newFn st f)) from rfl,
            mapInsert_other _ _ _ _ hpc] at hl
          rcases hinv.locMapMem pc l hl with ⟨hm, haddr⟩
          exact ⟨List.mem_append.mpr (Or.inl hm), haddr⟩
      · intro s hs loc' hloc'
        exact List.mem_append.mpr (Or.inl (hinv.samplesLoc s hs loc' hloc'))
      · intro k fn' hk
        have hkey : k ≠ f.File ++ f.Fn := by
          intro hkeq
          rw [hkeq, hfun] at hk
          cases hk
        show mapInsert st.funcs (f.File ++ f.Fn) (newFn st f) _ = _
        rw [mapInsert_other _ _ _ _ hkey]
        exact hk
      · intro pc l hl
        have hpc : pc ≠ f.PC := by
          intro hpceq
          rw [hpceq, hloc] at hl
          cases hl
        show mapInsert (addFn st f).locs f.PC (newLoc (addFn st f) f (newFn st f)) _ = _
        rw [mapInsert_other _ _ _ _ hpc]
        exact hl
      · intro pc l hl
        by_cases hpc : pc = f.PC
        · exact Or.inr hpc
        · rw [show (addLoc (addFn st f) f (newFn st f)).locs
              = mapInsert (addFn st f).locs f.PC (newLoc (addFn st f) f (newFn st f)) from rfl,
            mapInsert_other _ _ _ _ hpc] at hl
          exact Or.inl hl
      · exact List.mem_append.mpr (Or.inr (List.mem_singleton.mpr rfl))
      · exact mapInsert_self _ _ _
      · intro _
        exact ⟨newFn st f,
          List.mem_append.mpr (Or.inr (List.mem_singleton.mpr rfl)), rfl⟩
    · -- fresh address, function key already interned: only a Location is made
      rw [processFrame_eq_foundFn st f fn hloc hfun]
      refine ⟨⟨hinv.funIds, ?_, hinv.funMap, hinv.funMapMem, ?_, ?_, ?_⟩,
        ⟨[], (List.append_nil _).symm⟩, ⟨_, rfl⟩, rfl,
        fun k fn' hk => hk, ?_, ?_, ?_, rfl, ?_, ?_⟩
      · exact map_id_concat _ _ _ hinv.locIds rfl
      · intro l hl
        rcases List.mem_append.mp hl with hold | hnewm
        · have haddr : l.Address ≠ f.PC := by
            intro heq
            rw [← heq] at hloc
            rw [hinv.locMap l hold] at hloc
            cases hloc
          show mapInsert st.locs f.PC (newLoc st f fn) _ = _
          rw [mapInsert_other _ _ _ _ haddr]
          exact hinv.locMap l hold
        · rcases List.mem_singleton.mp hnewm with rfl
          exact mapInsert_self _ _ _
      · intro pc l hl
        by_cases hpc : pc = f.PC
        · subst hpc
          rw [show (addLoc st f fn).locs
              = mapInsert st.locs f.PC (newLoc st f fn) from rfl,
            mapInsert_self] at hl
          cases hl
          exact ⟨List.mem_append.mpr (Or.inr (List.mem_singleton.mpr rfl)), rfl⟩
        · rw [show (addLoc st f fn).locs
              = mapInsert st.locs f.PC (newLoc st f fn) from rfl,
            mapInsert_other _ _ _ _ hpc] at hl
          rcases hinv.locMapMem pc l hl with ⟨hm, haddr⟩
          exact ⟨List.mem_append.mpr (Or.inl hm), haddr⟩
      · intro s hs loc' hloc'
        exact List.mem_append.mpr (Or.inl (hinv.samplesLoc s hs loc' hloc'))
      · intro pc l hl
        have hpc : pc ≠ f.PC := by
          intro hpceq
          rw [hpceq, hloc] at hl
          cases hl
        show mapInsert st.locs f.PC (newLoc st f fn) _ = _
        rw [mapInsert_other _ _ _ _ hpc]
        exact hl
      · intro pc l hl
        by_cases hpc : pc = f.PC
        · exact Or.inr hpc
        · rw [show (addLoc st f fn).locs
              = mapInsert st.locs f.PC (newLoc st f fn) from rfl,
            mapInsert_other _ _ _ _ hpc] at hl
          exact Or.inl hl
      · exact List.mem_append.mpr (Or.inr (List.mem_singleton.mpr rfl))
      · exact mapInsert_self _ _ _
      · intro _
        rcases hinv.funMapMem _ fn hfun with ⟨hm, hkey⟩
        exact ⟨fn, hm, hkey⟩
  · -- address already interned: nothing changes
    rw [processFrame_eq_interned st f loc hloc]
    rcases hinv.locMapMem f.PC loc hloc with ⟨hm, haddr⟩
    refine ⟨hinv, ⟨[], (List.append_nil _).symm⟩,
      ⟨[], (List.append_nil _).symm⟩, rfl,
      fun k fn' hk => hk, fun pc l hl => hl,
      fun pc l hl => Or.inl hl, hm, haddr, hloc, ?_⟩
    intro hcontra
    cases hcontra

/-- All frames of a record list. -/
def allFrames (recs : List Record) : List Frame :=
  (recs.map Record.stk).flatten

theorem allFrames_cons (r : Record) (rs : List Record) :
    allFrames (r :: rs) = r.stk ++ allFrames rs := rfl

/-- Address-consistency of a frame list: frames sharing an address agree on
file and function name. -/
def addrConsistent (A : List Frame) : Prop :=
  ∀ f1 ∈ A, ∀ f2 ∈ A, f1.PC = f2.PC → f1.File = f2.File ∧ f1.Fn = f2.Fn

instance (A : List Frame) : Decidable (addrConsistent A) := by
  unfold addrConsistent
  infer_instance

/-- Frame-tracking invariant of buildProfile relative to the frames already
processed: every interned address was interned by a processed frame, every
processed frame's function key is in the table, and every processed frame's
address is interned. -/
def FrameInv (st : BuildState) (processed : List Frame) : Prop :=
  (∀ pc l, st.locs pc = some l → ∃ f ∈ processed, f.PC = pc)
  ∧ (∀ f ∈ processed, ∃ fn ∈ st.functions,
      fn.Filename ++ fn.Name = f.File ++ f.Fn)
  ∧ (∀ f ∈ processed, st.locs f.PC ≠ none)

theorem frameInv_empty : FrameInv emptyBuildState [] := by
  refine ⟨?_, ?_, ?_⟩ <;> simp [emptyBuildState]

theorem processFrame_frameInv (st : BuildState) (f : Frame)
    (processed : List Frame) (hinv : BuildInv st)
    (hfi : FrameInv st processed)
    (hcons : ∀ f' ∈ processed, f'.PC = f.PC →
      f'.File = f.File ∧ f'.Fn = f.Fn) :
    FrameInv (processFrame st f).1 (processed ++ [f]) := by
  obtain ⟨_, ⟨tf, htf⟩, ⟨tl, htl⟩, _, hfunPres, hlocPres, hlocNew,
    _, _, hlocSelf, hfreshKey⟩ := processFrame_spec st f hinv
  obtain ⟨hf1, hf2, hf3⟩ := hfi
  refine ⟨?_, ?_, ?_⟩
  · intro pc l hl
    rcases hlocNew pc l hl with hold | rfl
    · rcases hf1 pc _ hold with ⟨f', hf', hpc'⟩
      exact ⟨f', List.mem_append.mpr (Or.inl hf'), hpc'⟩
    · exact ⟨f, List.mem_append.mpr (Or.inr (List.mem_singleton.mpr rfl)), rfl⟩
  · intro f'' hf''
    rcases List.mem_append.mp hf'' with hold | hnew
    · rcases hf2 f'' hold with ⟨fn, hfnmem, hkey⟩
      refine ⟨fn, ?_, hkey⟩
      rw [htf]
      exact List.mem_append.mpr (Or.inl hfnmem)
    · rcases List.mem_singleton.mp hnew with rfl
      rcases hcase : st.locs f''.PC with _ | l
      · exact hfreshKey hcase
      · rcases hf1 f''.PC l hcase with ⟨f', hf'mem, hpc'⟩
        rcases hcons f' hf'mem hpc' with ⟨hfile, hfn⟩
        rcases hf2 f' hf'mem with ⟨fn, hfnmem, hkey⟩
        refine ⟨fn, ?_, ?_⟩
        · rw [htf]
          exact List.mem_append.mpr (Or.inl hfnmem)
        · rw [hkey, hfile, hfn]
  · intro f'' hf''
    rcases List.mem_append.mp hf'' with hold | hnew
    · intro hnone
      rcases hcase : st.locs f''.PC with _ | l
      · exact hf3 f'' hold hcase
      · rw [hlocPres _ _ hcase] at hnone
        cases hnone
    · rcases List.mem_singleton.mp hnew with rfl
      rw [hlocSelf]
      simp

/-- Full effect of the inner frame loop of buildProfile on one record's
stack: invariants carry over, tables only grow, samples are untouched, and
the collected locations mirror the stack's addresses in order. -/
theorem foldFrames_spec (A : List Frame) (hA : addrConsistent A) :
    ∀ (fs : List Frame) (st : BuildState) (sloc : List ProfLocation)
      (processed : List Frame),
      BuildInv st → FrameInv st processed →
      (∀ f ∈ processed, f ∈ A) → (∀ f ∈ fs, f ∈ A) →
      BuildInv (fs.foldl frameStep (st, sloc)).1
      ∧ FrameInv (fs.foldl frameStep (st, sloc)).1 (processed ++ fs)
      ∧ (∃ t, (fs.foldl frameStep (st, sloc)).1.functions
          = st.functions ++ t)
      ∧ (∃ t, (fs.foldl frameStep (st, sloc)).1.locations
          = st.locations ++ t)
      ∧ (fs.foldl frameStep (st, sloc)).1.samples = st.samples
      ∧ (∃ d, (fs.foldl frameStep (st, sloc)).2 = sloc ++ d
          ∧ d.map ProfLocation.Address = fs.map Frame.PC
          ∧ ∀ l ∈ d, l ∈ (fs.foldl frameStep (st, sloc)).1.locations) := by
  intro fs
  induction fs with
  | nil =>
    intro st sloc processed hinv hfi hpA hfsA
    simp only [List.foldl_nil]
    refine ⟨hinv, ?_, ⟨[], ?_⟩, ⟨[], ?_⟩, ?_, ⟨[], ?_, ?_, ?_⟩⟩
    · simpa using hfi
    · simp
    · simp
    · simp
    · simp
    · simp
    · intro l hl
      simp at hl
  | cons f fs' ih =>
    intro st sloc processed hinv hfi hpA hfsA
    simp only [List.foldl_cons]
    have hstep : frameStep (st, sloc) f
        = ((processFrame st f).1, sloc ++ [(processFrame st f).2]) := rfl
    rw [hstep]
    obtain ⟨hInv1, ⟨tf, htf⟩, ⟨tl, htl⟩, hsamp, _, _, _,
      hmem2, haddr2, _, _⟩ := processFrame_spec st f hinv
    have hfi1 : FrameInv (processFrame st f).1 (processed ++ [f]) :=
      processFrame_frameInv st f processed hinv hfi
        (fun f' hf' hpc =>
          hA f' (hpA f' hf') f (hfsA f (List.mem_cons_self f fs')) hpc)
    have hpA1 : ∀ x ∈ processed ++ [f], x ∈ A := by
      intro x hx
      rcases List.mem_append.mp hx with h | h
      · exact hpA x h
      · rcases List.mem_singleton.mp h with rfl
        exact hfsA x (List.mem_cons_self x fs')
    have hfsA1 : ∀ x ∈ fs', x ∈ A :=
      fun x hx => hfsA x (List.mem_cons_of_mem f hx)
    obtain ⟨hI, hF, ⟨tf', htf'⟩, ⟨tl', htl'⟩, hsamp', ⟨d', hd', hdmap, hdmem⟩⟩ :=
      ih (processFrame st f).1 (sloc ++ [(processFrame st f).2])
        (processed ++ [f]) hInv1 hfi1 hpA1 hfsA1
    refine ⟨hI, ?_, ?_, ?_, ?_, ?_⟩
    · have happ : processed ++ f :: fs' = (processed ++ [f]) ++ fs' := by simp
      rw [happ]
      exact hF
    · exact ⟨tf ++ tf', by rw [htf', htf, List.append_assoc]⟩
    · exact ⟨tl ++ tl', by rw [htl', htl, List.append_assoc]⟩
    · rw [hsamp', hsamp]
    · refine ⟨(processFrame st f).2 :: d', ?_, ?_, ?_⟩
      · rw [hd']
        simp
      · simp [hdmap, haddr2]
      · intro l hl
        rcases List.mem_cons.mp hl with rfl | hl'
        · rw [htl']
          exact List.mem_append.mpr (Or.inl hmem2)
        · exact hdmem l hl'

/-- Full effect of one record on the buildProfile state: invariants carry
over, tables only grow, and exactly one sample is appended whose locations
mirror the record's stack addresses in order. -/
theorem processRecord_spec (A : List Frame) (hA : addrConsistent A)
    (st : BuildState) (r : Record) (processed : List Frame)
    (hinv : BuildInv st) (hfi : FrameInv st processed)
    (hpA : ∀ f ∈ processed, f ∈ A) (hrA : ∀ f ∈ r.stk, f ∈ A) :
    BuildInv (processRecord st r)
    ∧ FrameInv (processRecord st r) (processed ++ r.stk)
    ∧ (∃ t, (processRecord st r).functions = st.functions ++ t)
    ∧ (∃ t, (processRecord st r).locations = st.locations ++ t)
    ∧ (∃ d, (processRecord st r).samples
        = st.samples ++ [{ Value := [(r.n : Int), r.time], Location := d }]
        ∧ d.map ProfLocation.Address = r.stk.map Frame.PC) := by
  obtain ⟨hI, hF, ⟨tf, htf⟩, ⟨tl, htl⟩, hsamp, ⟨d, hd, hdmap, hdmem⟩⟩ :=
    foldFrames_spec A hA r.stk st [] processed hinv hfi hpA hrA
  have hd' : (r.stk.foldl frameStep (st, ([] : List ProfLocation))).2 = d := by
    simpa using hd
  have hfns : (processRecord st r).functions
      = (r.stk.foldl frameStep (st, ([] : List ProfLocation))).1.functions := rfl
  have hlocs : (processRecord st r).locations
      = (r.stk.foldl frameStep (st, ([] : List ProfLocation))).1.locations := rfl
  have hfuncs : (processRecord st r).funcs
      = (r.stk.foldl frameStep (st, ([] : List ProfLocation))).1.funcs := rfl
  have hlocsMap : (processRecord st r).locs
      = (r.stk.foldl frameStep (st, ([] : List ProfLocation))).1.locs := rfl
  have hsamples : (processRecord st r).samples
      = (r.stk.foldl frameStep (st, ([] : List ProfLocation))).1.samples
        ++ [{ Value := [(r.n : Int), r.time],
              Location := (r.stk.foldl frameStep
                (st, ([] : List ProfLocation))).2 }] := rfl
  refine ⟨?_, ?_, ?_, ?_, ?_⟩
  · refine ⟨?_, ?_, ?_, ?_, ?_, ?_, ?_⟩
    · rw [hfns]
      exact hI.funIds
    · rw [hlocs]
      exact hI.locIds
    · intro fn hfn
      rw [hfns] at hfn
      rw [hfuncs]
      exact hI.funMap fn hfn
    · intro k fn hk
      rw [hfuncs] at hk
      rw [hfns]
      exact hI.funMapMem k fn hk
    · intro l hl
      rw [hlocs] at hl
      rw [hlocsMap]
      exact hI.locMap l hl
    · intro pc l hl
      rw [hlocsMap] at hl
      rw [hlocs]
      exact hI.locMapMem pc l hl
    · intro s hs loc hloc
      rw [hsamples] at hs
      rw [hlocs]
      rcases List.mem_append.mp hs with hold | hnew
      · exact hI.samplesLoc s hold loc hloc
      · rcases List.mem_singleton.mp hnew with rfl
        have : loc ∈ (r.stk.foldl frameStep
            (st, ([] : List ProfLocation))).2 := hloc
        rw [hd'] at this
        exact hdmem loc this
  · obtain ⟨hF1, hF2, hF3⟩ := hF
    refine ⟨?_, ?_, ?_⟩
    · intro pc l hl
      rw [hlocsMap] at hl
      exact hF1 pc l hl
    · intro f hf
      rcases hF2 f hf with ⟨fn, hfn, hkey⟩
      refine ⟨fn, ?_, hkey⟩
      rw [hfns]
      exact hfn
    · intro f hf
      rw [hlocsMap]
      exact hF3 f hf
  · exact ⟨tf, by rw [hfns, htf]⟩
  · exact ⟨tl, by rw [hlocs, htl]⟩
  · refine ⟨d, ?_, hdmap⟩
    rw [hsamples, hsamp, hd']

/-- Full effect of the record fold of buildProfile: invariants hold at the
end, and the appended samples mirror the records' values and stack
addresses in order. -/
theorem foldRecords_spec (A : List Frame) (hA : addrConsistent A) :
    ∀ (rs : List Record) (st : BuildState) (processed : List Frame),
      BuildInv st → FrameInv st processed →
      (∀ f ∈ processed, f ∈ A) →
      (∀ f ∈ allFrames rs, f ∈ A) →
      BuildInv (rs.foldl processRecord st)
      ∧ FrameInv (rs.foldl processRecord st) (processed ++ allFrames rs)
      ∧ (∃ d, (rs.foldl processRecord st).samples = st.samples ++ d
          ∧ d.map ProfSample.Value = rs.map (fun r => [(r.n : Int), r.time])
          ∧ d.map (fun s => s.Location.map ProfLocation.Address)
              = rs.map (fun r => r.stk.map Frame.PC)) := by
  intro rs
  induction rs with
  | nil =>
    intro st processed hinv hfi hpA hfrA
    simp only [List.foldl_nil]
    refine ⟨hinv, ?_, ⟨[], ?_, ?_, ?_⟩⟩
    · simpa [allFrames] using hfi
    · simp
    · simp
    · simp
  | cons r rs' ih =>
    intro st processed hinv hfi hpA hfrA
    simp only [List.foldl_cons]
    have hrA : ∀ f ∈ r.stk, f ∈ A := by
      intro f hf
      refine hfrA f ?_
      rw [allFrames_cons]
      exact List.mem_append.mpr (Or.inl hf)
    have hrsA : ∀ f ∈ allFrames rs', f ∈ A := by
      intro f hf
      refine hfrA f ?_
      rw [allFrames_cons]
      exact List.mem_append.mpr (Or.inr hf)
    obtain ⟨hI1, hF1, _, _, ⟨d1, hd1, hd1map⟩⟩ :=
      processRecord_spec A hA st r processed hinv hfi hpA hrA
    have hpA1 : ∀ f ∈ processed ++ r.stk, f ∈ A := by
      intro f hf
      rcases List.mem_append.mp hf with h | h
      · exact hpA f h
      · exact hrA f h
    obtain ⟨hI, hF, ⟨d', hd', hdval, hdaddr⟩⟩ :=
      ih (processRecord st r) (processed ++ r.stk) hI1 hF1 hpA1 hrsA
    refine ⟨hI, ?_, ?_⟩
    · have happ : processed ++ allFrames (r :: rs')
          = (processed ++ r.stk) ++ allFrames rs' := by
        rw [allFrames_cons, List.append_assoc]
      rw [happ]
      exact hF
    · refine ⟨{ Value := [(r.n : Int), r.time], Location := d1 } :: d', ?_, ?_, ?_⟩
      · rw [hd', hd1]
        simp
      · simp only [List.map_cons, hdval, List.map_cons]
      · simp only [List.map_cons, hdaddr, hd1map]

/-- C5 (amended): under address-consistency of the records' frames,
buildProfile interns exactly one Function entry per distinct concatenated
`file ++ function-name` key occurring in the frames and exactly one Location
entry per distinct frame address; entries receive sequential ids 1, 2, 3, …
in creation order; samples reference only interned Locations; and the sample
location lists mirror the records' stacks address-for-address, so two
records sharing a frame address reference the single Location interned for
that address. -/
theorem buildProfile_interning (recs : List Record)
    (haddr : addrConsistent (allFrames recs)) :
    (∀ f ∈ allFrames recs, ∃ fn ∈ (buildProfile recs).Function,
      fn.Filename ++ fn.Name = f.File ++ f.Fn)
    ∧ (∀ fn1 ∈ (buildProfile recs).Function,
        ∀ fn2 ∈ (buildProfile recs).Function,
        fn1.Filename ++ fn1.Name = fn2.Filename ++ fn2.Name → fn1 = fn2)
    ∧ (∀ f ∈ allFrames recs, ∃ l ∈ (buildProfile recs).Location,
        l.Address = f.PC)
    ∧ (∀ l1 ∈ (buildProfile recs).Location,
        ∀ l2 ∈ (buildProfile recs).Location,
        l1.Address = l2.Address → l1 = l2)
    ∧ (buildProfile recs).Function.map ProfFunction.ID
        = List.range' 1 (buildProfile recs).Function.length
    ∧ (buildProfile recs).Location.map ProfLocation.ID
        = List.range' 1 (buildProfile recs).Location.length
    ∧ (∀ s ∈ (buildProfile recs).Sample, ∀ loc ∈ s.Location,
        loc ∈ (buildProfile recs).Location)
    ∧ (buildProfile recs).Sample.map
        (fun s => s.Location.map ProfLocation.Address)
        = recs.map (fun r => r.stk.map Frame.PC) := by
  obtain ⟨hI, hF, ⟨d, hd, hdval, hdaddr⟩⟩ :=
    foldRecords_spec (allFrames recs) haddr recs emptyBuildState []
      buildInv_empty frameInv_empty (by simp) (fun f hf => hf)
  obtain ⟨hF1, hF2, hF3⟩ := hF
  have hfn : (buildProfile recs).Function
      = (recs.foldl processRecord emptyBuildState).functions := rfl
  have hlc : (buildProfile recs).Location
      = (recs.foldl processRecord emptyBuildState).locations := rfl
  have hsm : (buildProfile recs).Sample
      = (recs.foldl processRecord emptyBuildState).samples := rfl
  rw [hfn, hlc, hsm]
  refine ⟨?_, ?_, ?_, ?_, hI.funIds, hI.locIds, hI.samplesLoc, ?_⟩
  · intro f hf
    rcases hF2 f (by simpa using hf) with ⟨fn, hfnm, hkey⟩
    exact ⟨fn, hfnm, hkey⟩
  · intro fn1 h1 fn2 h2 hkeys
    have e1 := hI.funMap fn1 h1
    have e2 := hI.funMap fn2 h2
    rw [hkeys] at e1
    rw [e2] at e1
    exact (Option.some.inj e1).symm
  · intro f hf
    have hne := hF3 f (by simpa using hf)
    rcases hcase : (recs.foldl processRecord emptyBuildState).locs f.PC
      with _ | l
    · exact absurd hcase hne
    · rcases hI.locMapMem f.PC l hcase with ⟨hm, haddr'⟩
      exact ⟨l, hm, haddr'⟩
  · intro l1 h1 l2 h2 haddrs
    have e1 := hI.locMap l1 h1
    have e2 := hI.locMap l2 h2
    rw [haddrs] at e1
    rw [e2] at e1
    exact (Option.some.inj e1).symm
  · have hd0 : (recs.foldl processRecord emptyBuildState).samples = d := by
      simpa [emptyBuildState] using hd
    rw [hd0, hdaddr]

/-- First frame of the C5 witness records. -/
def frameW1 : Frame := { PC := 1, Fn := "main.f", File := "main.go", Line := 3 }

/-- Second frame of the C5 witness records. -/
def frameW2 : Frame := { PC := 2, Fn := "main.g", File := "main.go", Line := 8 }

/-- Two records whose stacks share the frame address 1. -/
def recsWitness : List Record :=
  [ { stk := [frameW1, frameW2], n := 1, time := 10 },
    { stk := [frameW1], n := 2, time := 20 } ]

theorem buildProfile_interning_witness :
    addrConsistent (allFrames recsWitness)
    ∧ ((∀ f ∈ allFrames recsWitness, ∃ fn ∈ (buildProfile recsWitness).Function,
        fn.Filename ++ fn.Name = f.File ++ f.Fn)
      ∧ (∀ fn1 ∈ (buildProfile recsWitness).Function,
          ∀ fn2 ∈ (buildProfile recsWitness).Function,
          fn1.Filename ++ fn1.Name = fn2.Filename ++ fn2.Name → fn1 = fn2)
      ∧ (∀ f ∈ allFrames recsWitness, ∃ l ∈ (buildProfile recsWitness).Location,
          l.Address = f.PC)
      ∧ (∀ l1 ∈ (buildProfile recsWitness).Location,
          ∀ l2 ∈ (buildProfile recsWitness).Location,
          l1.Address = l2.Address → l1 = l2)
      ∧ (buildProfile recsWitness).Function.map ProfFunction.ID
          = List.range' 1 (buildProfile recsWitness).Function.length
      ∧ (buildProfile recsWitness).Location.map ProfLocation.ID
          = List.range' 1 (buildProfile recsWitness).Location.length
      ∧ (∀ s ∈ (buildProfile recsWitness).Sample, ∀ loc ∈ s.Location,
          loc ∈ (buildProfile recsWitness).Location)
      ∧ (buildProfile recsWitness).Sample.map
          (fun s => s.Location.map ProfLocation.Address)
          = recsWitness.map (fun r => r.stk.map Frame.PC)) :=
  ⟨by decide, buildProfile_interning recsWitness (by decide)⟩

/-- Records exhibiting the two deviations from pair-keyed Function
interning: the pairs ("a","bc") and ("ab","c") concatenate to the same
string key, and address 1 is revisited by a frame naming a different
function entirely. -/
def collideRecs : List Record :=
  [ { stk := [{ PC := 1, Fn := "bc", File := "a", Line := 1 }],
      n := 1, time := 1 },
    { stk := [{ PC := 2, Fn := "c", File := "ab", Line := 1 }],
      n := 1, time := 1 },
    { stk := [{ PC := 1, Fn := "zz", File := "q", Line := 9 }],
      n := 1, time := 9 } ]

/-- C5 counterexample: the distinct (filename, function-name) pairs
("ab","c") and ("q","zz") both occur in the records' frames, yet the built
profile's Function table is the single entry for ("a","bc"): interning is
keyed by the concatenated string `File ++ Fn`, and no Function is interned
at all for a frame whose address is already interned. -/
theorem buildProfile_pair_keying_fails :
    (buildProfile collideRecs).Function
      = [{ ID := 1, Name := "bc", SystemName := "bc", Filename := "a" }]
    ∧ ({ PC := 2, Fn := "c", File := "ab", Line := 1 } : Frame)
        ∈ allFrames collideRecs
    ∧ ({ PC := 1, Fn := "zz", File := "q", Line := 9 } : Frame)
        ∈ allFrames collideRecs
    ∧ ¬ (∃ fn ∈ (buildProfile collideRecs).Function,
        fn.Filename = "ab" ∧ fn.Name = "c")
    ∧ ¬ (∃ fn ∈ (buildProfile collideRecs).Function,
        fn.Filename = "q" ∧ fn.Name = "zz") := by
  refine ⟨rfl, by decide, by decide, by decide, by decide⟩

/-- Modelled from the spec: a goroutine descriptor from the upstream
goroutine index (analyzeGoroutines / gs live outside src/): goroutine id,
creation-site PC, start time, and termination time with 0 meaning "did not
terminate within the trace" (pprof.go:114-117 reads exactly these). -/
structure GDesc where
  ID : Nat
  PC : Nat
  StartTime : Int
  EndTime : Int
deriving DecidableEq, Repr

/-- Modelled from the spec: strconv.ParseUint(id, 10, 64) (outside src/)
parses a non-empty all-digit string into its decimal value when it fits in
64 bits, and errors otherwise (no sign, no grouping in base 10). -/
def parseUint64 (s : String) : Option Nat :=
  if s.data = [] then none
  else if s.data.all Char.isDigit then
    let v := s.data.foldl (fun acc c => acc * 10 + (c.toNat - '0'.toNat)) 0
    if v < 2 ^ 64 then some v else none
  else none

/-- Go map assignment for the per-goroutine interval map, rendered as an
association list in insertion order. -/
def setIntervals : List (Nat × List interval) → Nat → List interval →
    List (Nat × List interval)
  | [], key, v => [(key, v)]
  | (k, v0) :: rest, key, v =>
    if key = k then (key, v) :: rest else (k, v0) :: setIntervals rest key v

/-- Lookup in the per-goroutine interval map. -/
def lookupIntervals : List (Nat × List interval) → Nat →
    Option (List interval)
  | [], _ => none
  | (k, v) :: rest, key => if key = k then some v else lookupIntervals rest key

/-- The single interval pprofMatchingGoroutines builds for goroutine `g`
(pprof.go:114-118): from its start to its termination, or to the trace's
last timestamp when it never terminated (EndTime 0). -/
def gInterval (lastTs : Int) (g : GDesc) : interval :=
  { begin := g.StartTime,
    end_ := if g.EndTime = 0 then lastTs else g.EndTime }

/-- The goroutine-matching loop of pprofMatchingGoroutines
(pprof.go:107-119): each goroutine whose creation PC matches contributes its
single interval under its id. -/
def matchLoop (pc : Nat) (lastTs : Int) (gs : List GDesc)
    (res : List (Nat × List interval)) : List (Nat × List interval) :=
  gs.foldl (fun r (g : GDesc) =>
    if g.PC = pc then setIntervals r g.ID [gInterval lastTs g] else r) res

/-- pprofMatchingGoroutines (pprof.go:97-124), with the upstream goroutine
index and the trace's last timestamp passed explicitly (both live outside
src/ and are modelled from the spec). An empty id is the no-filter
sentinel; a malformed id or a match-less non-empty id is an error. -/
def pprofMatchingGoroutines (id : String) (gs : List GDesc) (lastTs : Int) :
    Except String (Option (List (Nat × List interval))) :=
  if id = "" then .ok none
  else
    match parseUint64 id with
    | none => .error ("invalid goroutine type: " ++ id)
    | some pc =>
      let res := matchLoop pc lastTs gs []
      if res.isEmpty ∧ id ≠ "" then
        .error ("failed to find matching goroutines for id: " ++ id)
      else .ok (some res)

theorem matchLoop_cons (pc : Nat) (lastTs : Int) (g : GDesc)
    (rest : List GDesc) (res : List (Nat × List interval)) :
    matchLoop pc lastTs (g :: rest) res
      = matchLoop pc lastTs rest
          (if g.PC = pc then setIntervals res g.ID [gInterval lastTs g]
           else res) := rfl

theorem lookupIntervals_set_self (l : List (Nat × List interval)) (k : Nat)
    (v : List interval) : lookupIntervals (setIntervals l k v) k = some v := by
  induction l with
  | nil => simp [setIntervals, lookupIntervals]
  | cons p rest ih =>
    rcases p with ⟨k0, v0⟩
    unfold setIntervals
    by_cases h : k = k0
    · simp [h, lookupIntervals]
    · simp [h, lookupIntervals, ih]

theorem lookupIntervals_set_other (l : List (Nat × List interval))
    (k k' : Nat) (v : List interval) (h : k' ≠ k) :
    lookupIntervals (setIntervals l k v) k' = lookupIntervals l k' := by
  induction l with
  | nil => simp [setIntervals, lookupIntervals, h]
  | cons p rest ih =>
    rcases p with ⟨k0, v0⟩
    unfold setIntervals
    by_cases hk : k = k0
    · subst hk
      simp [lookupIntervals, h]
    · simp only [if_neg hk]
      unfold lookupIntervals
      by_cases hk' : k' = k0
      · simp [hk']
      · simp [hk', ih]

theorem setIntervals_ne_nil (l : List (Nat × List interval)) (k : Nat)
    (v : List interval) : setIntervals l k v ≠ [] := by
  cases l with
  | nil => simp [setIntervals]
  | cons p rest =>
    rcases p with ⟨k0, v0⟩
    unfold setIntervals
    by_cases h : k = k0 <;> simp [h]

theorem matchLoop_no_match (pc : Nat) (lastTs : Int) :
    ∀ (gs : List GDesc) (res : List (Nat × List interval)),
      (∀ g ∈ gs, g.PC ≠ pc) → matchLoop pc lastTs gs res = res := by
  intro gs
  induction gs with
  | nil => intro res _; rfl
  | cons g rest ih =>
    intro res hno
    rw [matchLoop_cons, if_neg (hno g (List.mem_cons_self g rest))]
    exact ih res (fun g' hg' => hno g' (List.mem_cons_of_mem g hg'))

theorem matchLoop_preserves_nonempty (pc : Nat) (lastTs : Int) :
    ∀ (gs : List GDesc) (res : List (Nat × List interval)),
      res ≠ [] → matchLoop pc lastTs gs res ≠ [] := by
  intro gs
  induction gs with
  | nil => intro res h; exact h
  | cons g rest ih =>
    intro res h
    rw [matchLoop_cons]
    by_cases hg : g.PC = pc
    · rw [if_pos hg]
      exact ih _ (setIntervals_ne_nil _ _ _)
    · rw [if_neg hg]
      exact ih res h

theorem matchLoop_match_nonempty (pc : Nat) (lastTs : Int) :
    ∀ (gs : List GDesc) (res : List (Nat × List interval)) (g : GDesc),
      g ∈ gs → g.PC = pc → matchLoop pc lastTs gs res ≠ [] := by
  intro gs
  induction gs with
  | nil => intro res g h; cases h
  | cons g0 rest ih =>
    intro res g hmem hpc
    rw [matchLoop_cons]
    rcases List.mem_cons.mp hmem with rfl | hrest
    · rw [if_pos hpc]
      exact matchLoop_preserves_nonempty pc lastTs rest _
        (setIntervals_ne_nil _ _ _)
    · by_cases hg0 : g0.PC = pc
      · rw [if_pos hg0]
        exact matchLoop_preserves_nonempty pc lastTs rest _
          (setIntervals_ne_nil _ _ _)
      · rw [if_neg hg0]
        exact ih res g hrest hpc

theorem matchLoop_untouched_key (pc : Nat) (lastTs : Int) :
    ∀ (gs : List GDesc) (res : List (Nat × List interval)) (k : Nat),
      (∀ g ∈ gs, g.ID ≠ k) →
      lookupIntervals (matchLoop pc lastTs gs res) k
        = lookupIntervals res k := by
  intro gs
  induction gs with
  | nil => intro res k _; rfl
  | cons g rest ih =>
    intro res k hk
    rw [matchLoop_cons]
    by_cases hg : g.PC = pc
    · rw [if_pos hg]
      rw [ih _ k (fun g' hg' => hk g' (List.mem_cons_of_mem g hg'))]
      exact lookupIntervals_set_other _ _ _ _
        (fun h => hk g (List.mem_cons_self g rest) h.symm)
    · rw [if_neg hg]
      exact ih res k (fun g' hg' => hk g' (List.mem_cons_of_mem g hg'))

theorem matchLoop_match_lookup (pc : Nat) (lastTs : Int) :
    ∀ (gs : List GDesc) (res : List (Nat × List interval)) (g : GDesc),
      List.Pairwise (fun g1 g2 => g1.ID ≠ g2.ID) gs →
      g ∈ gs → g.PC = pc →
      lookupIntervals (matchLoop pc lastTs gs res) g.ID
        = some [gInterval lastTs g] := by
  intro gs
  induction gs with
  | nil => intro res g _ h; cases h
  | cons g0 rest ih =>
    intro res g hpair hmem hpc
    rcases List.pairwise_cons.mp hpair with ⟨hhead, htail⟩
    rw [matchLoop_cons]
    rcases List.mem_cons.mp hmem with rfl | hrest
    · rw [if_pos hpc]
      rw [matchLoop_untouched_key pc lastTs rest _ g.ID
        (fun g' hg' h => hhead g' hg' h.symm)]
      exact lookupIntervals_set_self _ _ _
    · by_cases hg0 : g0.PC = pc
      · rw [if_pos hg0]
        exact ih _ g htail hrest hpc
      · rw [if_neg hg0]
        exact ih res g htail hrest hpc

theorem matchLoop_key_origin (pc : Nat) (lastTs : Int) :
    ∀ (gs : List GDesc) (res : List (Nat × List interval)) (k : Nat),
      lookupIntervals (matchLoop pc lastTs gs res) k ≠ none →
      lookupIntervals res k ≠ none ∨ ∃ g ∈ gs, g.ID = k ∧ g.PC = pc := by
  intro gs
  induction gs with
  | nil => intro res k h; exact Or.inl h
  | cons g rest ih =>
    intro res k h
    rw [matchLoop_cons] at h
    by_cases hg : g.PC = pc
    · rw [if_pos hg] at h
      rcases ih _ k h with h1 | ⟨g', hg', hid, hpc'⟩
      · by_cases hk : k = g.ID
        · exact Or.inr ⟨g, List.mem_cons_self g rest, hk.symm, hg⟩
        · rw [lookupIntervals_set_other _ _ _ _ hk] at h1
          exact Or.inl h1
      · exact Or.inr ⟨g', List.mem_cons_of_mem g hg', hid, hpc'⟩
    · rw [if_neg hg] at h
      rcases ih res k h with h1 | ⟨g', hg', hid, hpc'⟩
      · exact Or.inl h1
      · exact Or.inr ⟨g', List.mem_cons_of_mem g hg', hid, hpc'⟩

/-- C6: the goroutine-type filter returns the nil no-filter sentinel exactly
for the empty identifier; a non-parsing identifier errors; a parsed
identifier matching zero goroutines errors (never an empty successful map);
and otherwise each matching goroutine (under distinct ids) is assigned
exactly one interval from its start time to its termination time, or to the
trace's last timestamp when it never terminated. -/
theorem pprofMatchingGoroutines_cases (id : String) (gs : List GDesc)
    (lastTs : Int) :
    (pprofMatchingGoroutines id gs lastTs = .ok none ↔ id = "")
    ∧ (id ≠ "" → parseUint64 id = none →
        ∃ e, pprofMatchingGoroutines id gs lastTs = .error e)
    ∧ (∀ pc, id ≠ "" → parseUint64 id = some pc →
        (∀ g ∈ gs, g.PC ≠ pc) →
        ∃ e, pprofMatchingGoroutines id gs lastTs = .error e)
    ∧ (∀ pc, id ≠ "" → parseUint64 id = some pc →
        List.Pairwise (fun g1 g2 => g1.ID ≠ g2.ID) gs →
        ∀ g ∈ gs, g.PC = pc →
        ∃ m, pprofMatchingGoroutines id gs lastTs = .ok (some m)
          ∧ lookupIntervals m g.ID = some [gInterval lastTs g]
          ∧ m ≠ [])
    ∧ (∀ m, pprofMatchingGoroutines id gs lastTs = .ok (some m) →
        ∀ k, lookupIntervals m k ≠ none →
        ∃ pc, parseUint64 id = some pc
          ∧ ∃ g ∈ gs, g.ID = k ∧ g.PC = pc) := by
  by_cases hid : id = ""
  · subst hid
    have hdef : pprofMatchingGoroutines "" gs lastTs = .ok none := rfl
    refine ⟨?_, ?_, ?_, ?_, ?_⟩
    · simp [hdef]
    · intro h
      exact absurd rfl h
    · intro pc h
      exact absurd rfl h
    · intro pc h
      exact absurd rfl h
    · intro m hm
      rw [hdef] at hm
      simp at hm
  · cases hparse : parseUint64 id with
    | none =>
      have hdef : pprofMatchingGoroutines id gs lastTs
          = .error ("invalid goroutine type: " ++ id) := by
        unfold pprofMatchingGoroutines
        rw [if_neg hid, hparse]
      refine ⟨?_, ?_, ?_, ?_, ?_⟩
      · rw [hdef]
        constructor
        · intro h
          cases h
        · intro h
          exact absurd h hid
      · intro _ _
        exact ⟨_, hdef⟩
      · intro pc _ hp
        cases hp
      · intro pc _ hp
        cases hp
      · intro m hm
        rw [hdef] at hm
        cases hm
    | some pc0 =>
      have hdef : pprofMatchingGoroutines id gs lastTs
          = (if (matchLoop pc0 lastTs gs []).isEmpty ∧ id ≠ "" then
              Except.error ("failed to find matching goroutines for id: " ++ id)
            else Except.ok (some (matchLoop pc0 lastTs gs []))) := by
        unfold pprofMatchingGoroutines
        rw [if_neg hid, hparse]
      by_cases hmatch : (matchLoop pc0 lastTs gs []).isEmpty
      · have herr : pprofMatchingGoroutines id gs lastTs
            = .error ("failed to find matching goroutines for id: " ++ id) := by
          rw [hdef, if_pos ⟨hmatch, hid⟩]
        refine ⟨?_, ?_, ?_, ?_, ?_⟩
        · rw [herr]
          constructor
          · intro h
            cases h
          · intro h
            exact absurd h hid
        · intro _ hp
          cases hp
        · intro _ _ _ _
          exact ⟨_, herr⟩
        · intro pc _ hp _ g hg hpc
          have hpc0 : pc = pc0 := (Option.some.inj hp).symm
          subst hpc0
          have hne := matchLoop_match_nonempty pc lastTs gs [] g hg hpc
          rw [List.isEmpty_iff] at hmatch
          exact absurd hmatch hne
        · intro m hm
          rw [herr] at hm
          cases hm
      · have hok : pprofMatchingGoroutines id gs lastTs
            = .ok (some (matchLoop pc0 lastTs gs [])) := by
          rw [hdef, if_neg (fun h => hmatch h.1)]
        refine ⟨?_, ?_, ?_, ?_, ?_⟩
        · rw [hok]
          constructor
          · intro h
            simp at h
          · intro h
            exact absurd h hid
        · intro _ hp
          cases hp
        · intro pc _ hp hno
          have hpc0 : pc = pc0 := (Option.some.inj hp).symm
          subst hpc0
          rw [matchLoop_no_match pc lastTs gs [] hno] at hmatch
          simp at hmatch
        · intro pc _ hp hpair g hg hpc
          have hpc0 : pc = pc0 := (Option.some.inj hp).symm
          subst hpc0
          refine ⟨matchLoop pc lastTs gs [], hok,
            matchLoop_match_lookup pc lastTs gs [] g hpair hg hpc, ?_⟩
          intro hnil
          rw [hnil] at hmatch
          simp at hmatch
        · intro m hm
          rw [hok] at hm
          have hm2 : matchLoop pc0 lastTs gs [] = m := by
            simpa using hm
          subst hm2
          intro k hk
          rcases matchLoop_key_origin pc0 lastTs gs [] k hk with h1 | hex
          · exact absurd rfl h1
          · exact ⟨pc0, rfl, hex⟩

/-- Concrete goroutine index: two goroutines created at PC 7 (one never
terminating) and one at PC 9. -/
def gsWitness : List GDesc :=
  [ { ID := 10, PC := 7, StartTime := 100, EndTime := 0 },
    { ID := 11, PC := 7, StartTime := 50, EndTime := 80 },
    { ID := 12, PC := 9, StartTime := 0, EndTime := 30 } ]

theorem pprofMatchingGoroutines_cases_witness :
    ("7" : String) ≠ ""
    ∧ parseUint64 "7" = some 7
    ∧ List.Pairwise (fun g1 g2 => g1.ID ≠ g2.ID) gsWitness
    ∧ ({ ID := 10, PC := 7, StartTime := 100, EndTime := 0 } : GDesc) ∈ gsWitness
    ∧ (∃ m, pprofMatchingGoroutines "7" gsWitness 500 = .ok (some m)
        ∧ lookupIntervals m 10
            = some [gInterval 500 { ID := 10, PC := 7, StartTime := 100, EndTime := 0 }]
        ∧ m ≠ []) :=
  ⟨by decide, by decide, by decide, by decide,
    (pprofMatchingGoroutines_cases "7" gsWitness 500).2.2.2.1 7 (by decide)
      (by decide) (by decide)
      { ID := 10, PC := 7, StartTime := 100, EndTime := 0 } (by decide) rfl⟩
